import Mathlib

/-!
Verification of the fh-aachen graph library against its specification.

This file shallowly embeds the library's data model and algorithms
(adjacency-list and adjacency-matrix backends, BFS, Dijkstra,
Bellman-Ford, union-find, Kruskal, Prim, Edmonds-Karp, TSP solvers)
as executable Lean definitions translated from the Rust source, and
proves or refutes the specification's claims about them.

Conventions used throughout:
* Vertex ids are natural numbers (the library's ids are integer-like
  and only require Eq + Hash + Copy; the matrix backend needs them to
  be the dense range 0..n).
* Hash maps are modelled as association lists (`List (Nat × _)`);
  their iteration order is a permutation chosen by the hasher, so
  universally quantified theorems over all association lists cover
  every possible iteration order.
* Hash sets are modelled as `List Nat` with membership semantics.
* Generic weight types are instantiated at `Int` (a valid instantiation
  of the Rust trait bounds, matching i64).
* A Rust function that can panic is modelled with an explicit
  `Outcome`/`Option` that separates panics from `GraphError` returns.
-/

namespace GraphSpec

/-- Error taxonomy, from src/graph/error.rs (message payloads omitted,
ids kept). -/
inductive GraphError where
  | VertexNotFound (v : Nat)
  | DuplicateVertex (v : Nat)
  | DuplicateEdge (a b : Nat)
  | InvalidFormat
  | IoError
  | ParseError
  | OperationFailed
  | AlgorithmError
deriving DecidableEq, Repr

/-- Result of running a fallible Rust operation: it may panic (index
out of bounds, `todo!()`, arithmetic overflow with checks on), return
an error value, or succeed. -/
inductive Outcome (α : Type) where
  | panicked
  | errored (e : GraphError)
  | ok (g : α)
deriving DecidableEq, Repr

/-- Direction tag, from src/graph/direction.rs. -/
inductive Direction where
  | Directed
  | Undirected
deriving DecidableEq, Repr

/-! ## Association-list helpers (model of FxHashMap) -/

/-- Update the value stored under key `k` (insert if absent), as
`HashMap::insert` / `entry(k).or_default()` would. -/
def updateAssoc (l : List (Nat × α)) (k : Nat) (v : α) : List (Nat × α) :=
  match l with
  | [] => [(k, v)]
  | (k₀, v₀) :: rest =>
      if k₀ = k then (k₀, v) :: rest else (k₀, v₀) :: updateAssoc rest k v

/-- Lookup in an association list (model of `HashMap::get`). -/
def lookupAssoc (l : List (Nat × α)) (k : Nat) : Option α :=
  match l with
  | [] => none
  | (k₀, v₀) :: rest => if k₀ = k then some v₀ else lookupAssoc rest k

/-! ## Adjacency-list backend (src/graph/adjacency_list.rs)

`vertices` is the id set of the vertex hash map (payloads are the ids
themselves), `adjacency` maps an id to its neighbour list in insertion
order. -/

structure AdjListGraph (E : Type) where
  vertices : List Nat
  adjacency : List (Nat × List (Nat × E))
deriving DecidableEq, Repr

namespace AdjListGraph

/-- The neighbour list of `v` (empty when the key is absent), in
insertion order: `get_adjacent_vertices(_with_edges)`. -/
def adjOf (g : AdjListGraph E) (v : Nat) : List (Nat × E) :=
  (lookupAssoc g.adjacency v).getD []

/-- `push_edge_internal`: checks both endpoints exist, then that the
directed slot `(u, v)` is free, then appends to `u`'s neighbour list.
Returns the error (if any) and the resulting graph (unchanged on
error, since all checks precede the mutation). -/
def pushEdgeInternal (g : AdjListGraph E) (u v : Nat) (e : E) :
    Option GraphError × AdjListGraph E :=
  if ¬ g.vertices.contains u then (some (.VertexNotFound u), g)
  else if ¬ g.vertices.contains v then (some (.VertexNotFound v), g)
  else if (g.adjOf u).any (fun p => p.1 = v) then (some (.DuplicateEdge u v), g)
  else (none, { g with adjacency := updateAssoc g.adjacency u (g.adjOf u ++ [(v, e)]) })

/-- `push_vertex`: fails on duplicate id. -/
def pushVertex (g : AdjListGraph E) (v : Nat) : Option GraphError × AdjListGraph E :=
  if g.vertices.contains v then (some (.DuplicateVertex v), g)
  else (none, { g with vertices := g.vertices ++ [v] })

/-- `push_edge` of the `Directed` impl: a single oriented arc. -/
def pushEdgeDirected (g : AdjListGraph E) (u v : Nat) (e : E) :
    Option GraphError × AdjListGraph E :=
  g.pushEdgeInternal u v e

/-- `push_edge` of the `Undirected` impl: both half-arcs, with `?`
propagation after each half (so a failing second half leaves the first
half stored). -/
def pushEdgeUndirected (g : AdjListGraph E) (u v : Nat) (e : E) :
    Option GraphError × AdjListGraph E :=
  match g.pushEdgeInternal u v e with
  | (some err, g₁) => (some err, g₁)
  | (none, g₁) => g₁.pushEdgeInternal v u e

/-- `from_vertices_and_edges` of both adjacency-list impls is
`todo!()`: calling it panics unconditionally. -/
def fromVerticesAndEdges (_dir : Direction) (_vs : List Nat)
    (_es : List (Nat × Nat × E)) : Outcome (AdjListGraph E) :=
  Outcome.panicked

/-- `is_directed` of the two adjacency-list impls. -/
def isDirected (_g : AdjListGraph E) (dir : Direction) : Bool :=
  match dir with
  | .Directed => true
  | .Undirected => false

/-- Well-formedness invariants maintained by the library's
constructors: every adjacency key and every neighbour id is a stored
vertex, and stored vertex ids are unique. -/
structure WF (g : AdjListGraph E) : Prop where
  keys : ∀ p ∈ g.adjacency, p.1 ∈ g.vertices
  targets : ∀ p ∈ g.adjacency, ∀ q ∈ p.2, q.1 ∈ g.vertices
  nodupVerts : g.vertices.Nodup

end AdjListGraph

/-! ## Adjacency-matrix backend (src/graph/adjacency_matrix.rs)

`vertices` is the dense vertex vector (payloads are their ids),
`matrix` the N x N row-major matrix of optional edge payloads. -/

structure MatrixGraph (E : Type) where
  vertices : List Nat
  matrix : List (List (Option E))
deriving DecidableEq, Repr

namespace MatrixGraph

/-- Read matrix cell `(i, j)`; `none` also when out of range (the Rust
code panics out of range, but every use below is guarded). -/
def cell (g : MatrixGraph E) (i j : Nat) : Option E :=
  ((g.matrix.getD i []).getD j none)

/-- Write matrix cell `(i, j)` (no-op out of range; in-range whenever
used below). -/
def setCell (g : MatrixGraph E) (i j : Nat) (e : E) : MatrixGraph E :=
  { g with matrix := g.matrix.set i ((g.matrix.getD i []).set j (some e)) }

/-- `push_edge_internal`: endpoint bounds are checked against the
vertex vector, the duplicate check reads the matrix cell, then the
cell is written. -/
def pushEdgeInternal (g : MatrixGraph E) (u v : Nat) (e : E) :
    Option GraphError × MatrixGraph E :=
  if ¬ u < g.vertices.length then (some (.VertexNotFound u), g)
  else if ¬ v < g.vertices.length then (some (.VertexNotFound v), g)
  else if (g.cell u v).isSome then (some (.DuplicateEdge u v), g)
  else (none, g.setCell u v e)

/-- `push_edge` of the `Undirected` impl: writes both symmetric cells
through two `push_edge_internal` calls with `?` propagation. -/
def pushEdgeUndirected (g : MatrixGraph E) (u v : Nat) (e : E) :
    Option GraphError × MatrixGraph E :=
  match g.pushEdgeInternal u v e with
  | (some err, g₁) => (some err, g₁)
  | (none, g₁) => g₁.pushEdgeInternal v u e

/-- `push_edge` of the `Directed` impl: one cell. -/
def pushEdgeDirected (g : MatrixGraph E) (u v : Nat) (e : E) :
    Option GraphError × MatrixGraph E :=
  g.pushEdgeInternal u v e

/-- `is_directed`, exactly as written in the source: the `Undirected`
impl (line 259) returns `false`, and the `Directed` impl (line 440)
*also* returns `false`. -/
def isDirected (_g : MatrixGraph E) (dir : Direction) : Bool :=
  match dir with
  | .Directed => false
  | .Undirected => false

/-- Write one batch edge as `from_vertices_and_edges` does: no
duplicate check, direct matrix indexing (a panic when an endpoint
is out of the dense range), both cells for `Undirected`. -/
def writeBatchEdge (dir : Direction) (n : Nat) (g : MatrixGraph E)
    (t : Nat × Nat × E) : Option (MatrixGraph E) :=
  if t.1 < n ∧ t.2.1 < n then
    match dir with
    | .Directed => some (g.setCell t.1 t.2.1 t.2.2)
    | .Undirected => some ((g.setCell t.1 t.2.1 t.2.2).setCell t.2.1 t.1 t.2.2)
  else none

/-- `from_vertices_and_edges` of the adjacency-matrix impls: empty
batch gives the empty graph; otherwise the vertices are pushed
*without any validation* and each edge triple is written into the
matrix directly, later triples overwriting earlier ones in the same
slot.  The only failure is an index panic on an out-of-range
endpoint; no `GraphError` is ever returned. -/
def fromVerticesAndEdges (dir : Direction) (vs : List Nat)
    (es : List (Nat × Nat × E)) : Outcome (MatrixGraph E) :=
  if vs.isEmpty then .ok { vertices := [], matrix := [] }
  else
    let n := vs.length
    let g₀ : MatrixGraph E :=
      { vertices := vs, matrix := List.replicate n (List.replicate n none) }
    match es.foldlM (fun g t => writeBatchEdge dir n g t) g₀ with
    | some g => .ok g
    | none => .panicked

end MatrixGraph

/-! ## BFS iterator (src/algorithms/bfs_iter.rs)

The iterator state is a FIFO queue of pending ids plus a discovered
set.  `next` pops the queue front, enqueues (and marks discovered)
every undiscovered neighbour in insertion order, and yields the popped
vertex.  We materialise the whole yield sequence; the fuel equals the
number of stored vertices, which (for well-formed graphs) is proved
sufficient for the queue to drain. -/

namespace AdjListGraph

/-- Process one popped vertex's neighbour list: the fold mirrors the
`for v in neighbors` loop, threading the discovered set and the queue. -/
def bfsExpand (g : AdjListGraph E) (v : Nat) (visited queue : List Nat) :
    List Nat × List Nat :=
  (g.adjOf v).foldl
    (fun (st : List Nat × List Nat) p =>
      if st.1.contains p.1 then st else (st.1 ++ [p.1], st.2 ++ [p.1]))
    (visited, queue)

/-- The queue-draining loop of repeated `BfsIter::next` calls. -/
def bfsAux (g : AdjListGraph E) : Nat → List Nat → List Nat → List Nat
  | 0, _, _ => []
  | _ + 1, [], _ => []
  | fuel + 1, v :: qs, visited =>
      let st := g.bfsExpand v visited qs
      v :: g.bfsAux fuel st.2 st.1

/-- `bfs_iter(start)` followed by collecting the whole iterator:
fails with `VertexNotFound` when the start id is absent, otherwise
yields the breadth-first id sequence. -/
def bfsIter (g : AdjListGraph E) (s : Nat) : Except GraphError (List Nat) :=
  if g.vertices.contains s then
    .ok (g.bfsAux g.vertices.length [s] [s])
  else .error (.VertexNotFound s)

/-! ### Reachability and breadth distance (specification side) -/

/-- `ReachLen g s v d`: some walk of exactly `d` edges leads from `s`
to `v` along stored arcs. -/
inductive ReachLen (g : AdjListGraph E) (s : Nat) : Nat → Nat → Prop where
  | refl : ReachLen g s s 0
  | tail {v w : Nat} {d : Nat} (hv : ReachLen g s v d)
      (hw : w ∈ (g.adjOf v).map Prod.fst) : ReachLen g s w (d + 1)

/-- `v` is reachable from `s` (by arcs, the BFS reachability model). -/
def Reach (g : AdjListGraph E) (s v : Nat) : Prop :=
  ∃ d, ReachLen g s v d

/-- Breadth (edge-count) distance from `s` to `v`, `⊤` when
unreachable. -/
noncomputable def bdist (g : AdjListGraph E) (s v : Nat) : ℕ∞ :=
  sInf (Set.image (fun d : Nat => (d : ℕ∞)) (setOf (fun d => ReachLen g s v d)))

end AdjListGraph

/-! ## Shortest paths (src/algorithms/shortest_path)

Weighted directed graphs are the adjacency-list backend with payload
`Int` (`get_weight` is the identity).  Cost and predecessor hash maps
are modelled as functions into `Option`. -/

/-- `SingleSourceShortestPaths`: start, cost map, predecessor map. -/
structure SSSP where
  start : Nat
  costs : Nat → Option Int
  predecessors : Nat → Option Nat

/-- `BellmanFordResult`. -/
inductive BFResult where
  | SPT (r : SSSP)
  | NegativeCycle (cycle : List Nat)

/-- Whether a `BellmanFordResult` is the `NegativeCycle` variant. -/
def BFResult.isNegCycle : BFResult → Bool
  | .SPT _ => false
  | .NegativeCycle _ => true

namespace AdjListGraph

/-! ### Bellman-Ford (queue-based), src/algorithms/shortest_path/bellman_ford.rs -/

/-- State threaded through one relaxation pass: cost map, predecessor
map, and the list of vertices whose cost changed (pushed in update
order, duplicates possible). -/
structure BFState where
  costs : Nat → Option Int
  preds : Nat → Option Nat
  changed : List Nat

/-- Relax a single directed edge `(v, w, wt)` against the current
state, mirroring the `match (cost_v, cost_w)` in the source. -/
def bfRelax (st : BFState) (t : Nat × Nat × Int) : BFState :=
  let v := t.1; let w := t.2.1; let wt := t.2.2
  match st.costs v, st.costs w with
  | some cv, some cw =>
      if cv + wt < cw then
        { costs := Function.update st.costs w (some (cv + wt)),
          preds := Function.update st.preds w (some v),
          changed := st.changed ++ [w] }
      else st
  | some cv, none =>
      { costs := Function.update st.costs w (some (cv + wt)),
        preds := Function.update st.preds w (some v),
        changed := st.changed ++ [w] }
  | none, _ => st

/-- The edge triples examined in one pass: all outgoing edges of the
frontier vertices, in frontier order then adjacency insertion order. -/
def frontierEdges (g : AdjListGraph Int) (frontier : List Nat) :
    List (Nat × Nat × Int) :=
  frontier.flatMap fun v => (g.adjOf v).map fun p => (v, p.1, p.2)

/-- One pass of the queue-based Bellman-Ford. -/
def bfPass (g : AdjListGraph Int) (frontier : List Nat)
    (costs : Nat → Option Int) (preds : Nat → Option Nat) : BFState :=
  (g.frontierEdges frontier).foldl bfRelax ⟨costs, preds, []⟩

/-- `construct_negative_cycle`: walk the predecessor chain from
`initial` until a repeat, then read the cycle off.  The two walks are
fuelled; the fuel passed by `bellmanFord` is large enough for every
reachable behaviour, and the claim under verification only inspects
the constructor, not the cycle contents. -/
def chaseRepeat (preds : Nat → Option Nat) : Nat → List Nat → Nat → Nat
  | 0, _, current => current
  | fuel + 1, visited, current =>
      if current ∈ visited then current
      else
        match preds current with
        | some p => chaseRepeat preds fuel (current :: visited) p
        | none => current

def collectCycle (preds : Nat → Option Nat) (cycleStart : Nat) :
    Nat → Nat → List Nat → List Nat
  | 0, _, acc => acc
  | fuel + 1, current, acc =>
      if current = cycleStart then acc
      else
        match preds current with
        | some p => collectCycle preds cycleStart fuel p (acc ++ [current])
        | none => acc

def constructNegativeCycle (preds : Nat → Option Nat) (fuel initial : Nat) :
    List Nat :=
  let cycleStart := chaseRepeat preds fuel [] initial
  let tail :=
    match preds cycleStart with
    | some p => collectCycle preds cycleStart fuel p []
    | none => []
  (cycleStart :: tail).reverse

/-- The pass loop: `k` passes remain out of the original `n = |V|`.
An empty change list ends with `SPT`; a change in the final pass
(`k = 1`, i.e. `i = n`) reports a negative cycle. -/
def bfLoop (g : AdjListGraph Int) :
    Nat → (Nat → Option Int) → (Nat → Option Nat) → List Nat → BFResult
  | 0, costs, preds, _ => .SPT ⟨0, costs, preds⟩
  | k + 1, costs, preds, frontier =>
      let st := g.bfPass frontier costs preds
      match st.changed with
      | [] => .SPT ⟨0, st.costs, st.preds⟩
      | c :: _ =>
          if k = 0 then
            .NegativeCycle
              (constructNegativeCycle st.preds (g.vertices.length + 1) c)
          else g.bfLoop k st.costs st.preds st.changed

/-- `bellman_ford(start)`: initialise `cost(start) = 0`, frontier
`[start]`, run at most `|V|` passes.  (The `start` field of the `SPT`
payload is fixed afterwards, as in the source's final constructor
call.) -/
def bellmanFord (g : AdjListGraph Int) (s : Nat) : BFResult :=
  match g.bfLoop g.vertices.length
      (Function.update (fun _ => none) s (some 0))
      (fun _ => none) [s] with
  | .SPT r => .SPT { r with start := s }
  | .NegativeCycle c => .NegativeCycle c

/-! ### Specification-side notions for Bellman-Ford -/

/-- Weighted walks along stored arcs, extended at the tail: the step
list records `(target, weight)` of each arc in order. -/
inductive WalkL (g : AdjListGraph Int) (a : Nat) : Nat → List (Nat × Int) → Prop where
  | refl : WalkL g a a []
  | tail {v w : Nat} {wt : Int} {steps : List (Nat × Int)} :
      WalkL g a v steps → (w, wt) ∈ g.adjOf v → WalkL g a w (steps ++ [(w, wt)])

/-- Total weight of a walk's step list. -/
def wcost (steps : List (Nat × Int)) : Int := (steps.map Prod.snd).sum

/-- A negative-weight cycle reachable from `s`. -/
def ReachNegCycle (g : AdjListGraph Int) (s : Nat) : Prop :=
  ∃ u pre cyc, WalkL g s u pre ∧ WalkL g u u cyc ∧ cyc ≠ [] ∧ wcost cyc < 0

/-- Cost-map entries as extended integers (`none` = unreached = `⊤`). -/
def oc : Option Int → WithTop Int
  | none => ⊤
  | some z => (z : WithTop Int)

/-- The vertex a walk with step list `steps` out of `a` ends at: the
last step's target, or `a` itself for the empty walk. -/
def walkEnd (a : Nat) (steps : List (Nat × Int)) : Nat :=
  (steps.map Prod.fst).getLastD a

/-- The pure pass iteration of the queue-based Bellman-Ford: state
after `k` relaxation passes from the start configuration (the
`changed` field of state `k` is the frontier of pass `k + 1`). -/
def passIter (g : AdjListGraph Int) (s : Nat) : Nat → BFState
  | 0 => ⟨Function.update (fun _ => none) s (some 0), fun _ => none, [s]⟩
  | k + 1 =>
      let st := passIter g s k
      g.bfPass st.changed st.costs st.preds

/-! ### Dijkstra, src/algorithms/shortest_path/dijkstra.rs

The `BinaryHeap` of `Reverse`-ordered entries is modelled as a list
from which the pop removes the first entry of minimal cost (for the
heap, ties among equal costs are unspecified; every theorem below is
insensitive to the tie order). -/

/-- Remove a minimal-cost entry from the queue model, returning it and
the remainder; `none` on the empty queue. -/
def popMin : List (Int × Nat) → Option ((Int × Nat) × List (Int × Nat))
  | [] => none
  | e :: rest =>
      match popMin rest with
      | none => some (e, [])
      | some (m, rest') =>
          if e.1 ≤ m.1 then some (e, rest) else some (m, e :: rest')

/-- State of the Dijkstra main loop. -/
structure DijState where
  costs : Nat → Option Int
  preds : Nat → Option Nat
  visited : List Nat
  queue : List (Int × Nat)

/-- Relax the edges out of a popped entry, mirroring the
`costs.entry(next_v)` match (already-visited neighbours filtered). -/
def dijExpand (g : AdjListGraph Int) (entry : Int × Nat) (st : DijState) :
    DijState :=
  ((g.adjOf entry.2).filter (fun p => ¬ st.visited.contains p.1)).foldl
    (fun st p =>
      let newCost := entry.1 + p.2
      match st.costs p.1 with
      | some old =>
          if newCost < old then
            { st with
              costs := Function.update st.costs p.1 (some newCost),
              preds := Function.update st.preds p.1 (some entry.2),
              queue := st.queue ++ [(newCost, p.1)] }
          else st
      | none =>
          { st with
            costs := Function.update st.costs p.1 (some newCost),
            preds := Function.update st.preds p.1 (some entry.2),
            queue := st.queue ++ [(newCost, p.1)] })
    st

/-- The Dijkstra pop loop, fuelled (each fuel unit is one pop). -/
def dijLoop (g : AdjListGraph Int) (goal : Option Nat) :
    Nat → DijState → DijState
  | 0, st => st
  | fuel + 1, st =>
      match popMin st.queue with
      | none => st
      | some (entry, rest) =>
          if st.visited.contains entry.2 then
            g.dijLoop goal fuel { st with queue := rest }
          else if goal = some entry.2 then { st with queue := rest }
          else
            let st' := g.dijExpand entry { st with queue := rest }
            g.dijLoop goal fuel { st' with visited := st'.visited ++ [entry.2] }

/-- `dijkstra(start, goal)`.  The fuel bounds the number of pops; for
the claims proved below (start absent from the graph) a single pop
occurs, so any positive fuel gives the Rust behaviour. -/
def dijkstra (g : AdjListGraph Int) (s : Nat) (goal : Option Nat) : SSSP :=
  let st₀ : DijState :=
    { costs := Function.update (fun _ => none) s (some 0),
      preds := fun _ => none,
      visited := [],
      queue := [(0, s)] }
  let st := g.dijLoop goal (g.vertices.length + 1) st₀
  ⟨s, st.costs, st.preds⟩

end AdjListGraph

/-! ## Union-find (src/algorithms/mst/union_find.rs) -/

inductive UnionFindError where
  | VertexNotFound (v : Nat)
  | DuplicateVertex (v : Nat)
  | NotDisjunct (x y p : Nat)
deriving DecidableEq, Repr

/-- Disjoint-set forest: parent map and size map. -/
structure UnionFind where
  sets : List (Nat × Nat)
  setSizes : List (Nat × Nat)
deriving DecidableEq, Repr

namespace UnionFind

/-- `make_set(x)`. -/
def makeSet (uf : UnionFind) (x : Nat) :
    Except UnionFindError Unit × UnionFind :=
  if (lookupAssoc uf.sets x).isSome then (.error (.DuplicateVertex x), uf)
  else (.ok (), ⟨updateAssoc uf.sets x x, updateAssoc uf.setSizes x 1⟩)

/-- The parent-chain walk of `find`, collecting the visited nodes for
path compression.  The walk of a valid forest strictly shortens the
distance to the root, so the fuel supplied by `find` (the number of
stored elements plus one) is never exhausted in reachable states. -/
def findChase (sets : List (Nat × Nat)) (x : Nat) :
    Nat → Nat → List Nat → Except UnionFindError (Nat × List Nat)
  | 0, _, _ => .error (.VertexNotFound x)
  | fuel + 1, current, visited =>
      match lookupAssoc sets current with
      | none => .error (.VertexNotFound x)
      | some parent =>
          if current = parent then .ok (parent, visited)
          else findChase sets x fuel parent (visited ++ [current])

/-- `find(x)`: walk to the representative, then re-parent every
visited node directly to it. -/
def find (uf : UnionFind) (x : Nat) :
    Except UnionFindError Nat × UnionFind :=
  match findChase uf.sets x (uf.sets.length + 1) x [] with
  | .error e => (.error e, uf)
  | .ok (parent, visited) =>
      (.ok parent,
       { uf with sets := visited.foldl (fun s v => updateAssoc s v parent) uf.sets })

/-- `union(x, y)` exactly as implemented: when the two representatives
are **equal** it returns the *error* `NotDisjunct(x, y, parent)`;
otherwise union-by-size merges and returns `Ok(())`. -/
def union (uf : UnionFind) (x y : Nat) :
    Except UnionFindError Unit × UnionFind :=
  match uf.find x with
  | (.error e, uf₁) => (.error e, uf₁)
  | (.ok px, uf₁) =>
      match uf₁.find y with
      | (.error e, uf₂) => (.error e, uf₂)
      | (.ok py, uf₂) =>
          if px = py then (.error (.NotDisjunct x y px), uf₂)
          else
            let sx := (lookupAssoc uf₂.setSizes px).getD 0
            let sy := (lookupAssoc uf₂.setSizes py).getD 0
            if sx ≤ sy then
              (.ok (), ⟨updateAssoc uf₂.sets px py,
                        updateAssoc uf₂.setSizes py (sy + sx)⟩)
            else
              (.ok (), ⟨updateAssoc uf₂.sets py px,
                        updateAssoc uf₂.setSizes px (sx + sy)⟩)

end UnionFind

namespace AdjListGraph

/-! ## Kruskal (src/algorithms/mst/kruskal.rs), over the undirected
adjacency-list backend with `Int` weights. -/

/-- `get_all_edges` of the `Undirected` impl: each stored half-arc
with `from ≤ to`. -/
def allEdgesUndirected (g : AdjListGraph Int) : List (Nat × Nat × Int) :=
  g.adjacency.flatMap fun p =>
    p.2.filterMap fun q => if p.1 ≤ q.1 then some (p.1, q.1, q.2) else none

/-- The edge loop of `mst_kruskal`, processing edges in ascending
weight order (the source sorts descending and pops from the back).
`union` never signals "already merged" as a success — its only
non-error outcome is a merge — so each `Ok` adds the edge, and any
error (including `NotDisjunct` on a cycle-closing edge) is propagated
via `map_err(... AlgorithmError ...)?`. -/
def kruskalEdges (uf : UnionFind) (mst : AdjListGraph Int)
    (count target : Nat) :
    List (Nat × Nat × Int) → Outcome (AdjListGraph Int)
  | [] => .ok mst
  | (u, v, e) :: rest =>
      match uf.union u v with
      | (.error _, _) => .errored .AlgorithmError
      | (.ok _, uf') =>
          match mst.pushEdgeUndirected u v e with
          | (some err, _) => .errored err
          | (none, mst') =>
              if count + 1 ≥ target then .ok mst'
              else kruskalEdges uf' mst' (count + 1) target rest

/-- Insert an edge into an ascending-by-weight list, placing it
before earlier-inserted edges of equal weight.  Folding the stored
edge list through this reproduces exactly the order in which the
source pops edges: it sorts descending with a stable sort and pops
from the back, so edges come out ascending with ties in reversed
storage order. -/
def insertAscEdge (x : Nat × Nat × Int) :
    List (Nat × Nat × Int) → List (Nat × Nat × Int)
  | [] => [x]
  | y :: ys => if y.2.2 < x.2.2 then y :: insertAscEdge x ys else x :: y :: ys

/-- `mst_kruskal`: make a set per vertex (copying vertices into the
output), compute `target_edge_count = vertex_count - 1` — a `usize`
subtraction that *overflows (panics under overflow checks) on the
empty graph* — then run the edge loop in ascending weight order. -/
def mstKruskal (g : AdjListGraph Int) : Outcome (AdjListGraph Int) :=
  let setup : Option (UnionFind × AdjListGraph Int) :=
    g.vertices.foldlM
      (fun (st : UnionFind × AdjListGraph Int) v =>
        match st.1.makeSet v with
        | (.error _, _) => none
        | (.ok _, uf') =>
            match st.2.pushVertex v with
            | (some _, _) => none
            | (none, mst') => some (uf', mst'))
      (⟨[], []⟩, ⟨[], []⟩)
  match setup with
  | none => .errored .AlgorithmError
  | some (uf, mst) =>
      match mst.vertices.length with
      | 0 => .panicked
      | n + 1 =>
          let asc := g.allEdgesUndirected.foldl
            (fun acc e => insertAscEdge e acc) []
          kruskalEdges uf mst 0 n asc

/-! ## Prim (src/algorithms/mst/prim.rs) -/

/-- Remove a minimal-weight `EdgeEntry` from the heap model (`from`,
`to`, edge weight keyed by weight only; ties among equal weights are
the heap's choice — the concrete instances below use distinct
weights). -/
def popMinEntry : List (Int × Nat × Nat × Int) →
    Option ((Int × Nat × Nat × Int) × List (Int × Nat × Nat × Int))
  | [] => none
  | e :: rest =>
      match popMinEntry rest with
      | none => some (e, [])
      | some (m, rest') =>
          if e.1 ≤ m.1 then some (e, rest) else some (m, e :: rest')

/-- Main loop of `mst_prim`. -/
def primLoop (g : AdjListGraph Int) :
    Nat → List Nat → List (Int × Nat × Nat × Int) → AdjListGraph Int →
    Outcome (AdjListGraph Int)
  | 0, _, _, mst => .ok mst
  | fuel + 1, remaining, heap, mst =>
      if remaining.isEmpty then .ok mst
      else
        match popMinEntry heap with
        | none => .ok mst
        | some (entry, heap') =>
            if ¬ remaining.contains entry.2.2.1 then
              g.primLoop fuel remaining heap' mst
            else
              let remaining' := remaining.erase entry.2.2.1
              match mst.pushVertex entry.2.2.1 with
              | (some err, _) => .errored err
              | (none, mst₁) =>
                  match mst₁.pushEdgeUndirected entry.2.1 entry.2.2.1 entry.2.2.2 with
                  | (some err, _) => .errored err
                  | (none, mst₂) =>
                      let pushes :=
                        ((g.adjOf entry.2.2.1).filter
                          (fun p => remaining'.contains p.1)).map
                          (fun p => (p.2, entry.2.2.1, p.1, p.2))
                      g.primLoop fuel remaining' (heap' ++ pushes) mst₂

/-- `mst_prim(start?)`: empty graph with no requested start returns
the empty output graph before any heap work. -/
def mstPrim (g : AdjListGraph Int) (startOpt : Option Nat) :
    Outcome (AdjListGraph Int) :=
  match startOpt with
  | some s =>
      if ¬ g.vertices.contains s then .errored (.VertexNotFound s)
      else
        let remaining := (g.vertices.filter (fun v => v ≠ s))
        match (AdjListGraph.pushVertex ⟨[], []⟩ s) with
        | (some err, _) => .errored err
        | (none, mst₀) =>
            let heap₀ := (g.adjOf s).map (fun p => (p.2, s, p.1, p.2))
            g.primLoop (g.vertices.length * g.vertices.length
              + g.adjacency.foldl (fun n p => n + p.2.length) 0 + 1)
              remaining heap₀ mst₀
  | none =>
      match g.vertices with
      | [] => .ok ⟨[], []⟩
      | v₀ :: rest =>
          match (AdjListGraph.pushVertex ⟨[], []⟩ v₀) with
          | (some err, _) => .errored err
          | (none, mst₀) =>
              let heap₀ := (g.adjOf v₀).map (fun p => (p.2, v₀, p.1, p.2))
              g.primLoop (g.vertices.length * g.vertices.length
                + g.adjacency.foldl (fun n p => n + p.2.length) 0 + 1)
                rest heap₀ mst₀

end AdjListGraph

/-! ## Edmonds-Karp (src/algorithms/maximum_flow/edmonds_karp.rs)

The input is a directed adjacency-list graph whose edge payloads carry
a capacity (`max_flow` accessor) and a mutable flow (`flow` accessor),
both `Int` here.  The residual graph is built in a caller-chosen
backend; the adjacency-matrix one is used below (the adjacency-list
`from_vertices_and_edges` is a `todo!()` stub that panics). -/

/-- Edge payload of a flow network: capacity and flow field. -/
structure FlowE where
  cap : Int
  flow : Int
deriving DecidableEq, Repr

/-- `ResidualEdge`: remaining capacity and the reverse-arc marker. -/
structure ResE where
  flow : Int
  isRes : Bool
deriving DecidableEq, Repr

namespace AdjListGraph

/-- `get_all_edges` of the `Directed` impl. -/
def allEdgesDirected (g : AdjListGraph E) : List (Nat × Nat × E) :=
  g.adjacency.flatMap fun p => p.2.map fun q => (p.1, q.1, q.2)

/-- `get_edge_mut(u, v)` followed by `*flow(e) = *max_flow(e) - r`:
rewrite the flow field of the stored arc `(u, v)` to `cap - r`. -/
def setFlowFromCap (g : AdjListGraph FlowE) (u v : Nat) (r : Int) :
    AdjListGraph FlowE :=
  { g with
    adjacency := g.adjacency.map fun p =>
      if p.1 = u then
        (p.1, p.2.map fun q =>
          if q.1 = v then (q.1, ⟨q.2.cap, q.2.cap - r⟩) else q)
      else p }

end AdjListGraph

namespace MatrixGraph

/-- Neighbours of `c` in the residual matrix with nonzero remaining
capacity, in index order (`get_adjacent_vertices_with_edges` filtered
by `e.flow != Flow::default()`). -/
def resAdj (res : MatrixGraph ResE) (c : Nat) : List (Nat × ResE) :=
  (res.matrix.getD c []).enum.filterMap fun p =>
    match p.2 with
    | some e => if e.flow ≠ 0 then some (p.1, e) else none
    | none => none

/-- All stored cells of a directed matrix graph, row-major
(`get_all_edges` of the `Directed` impl). -/
def allCells (res : MatrixGraph ResE) : List (Nat × Nat × ResE) :=
  res.matrix.enum.flatMap fun p =>
    p.2.enum.filterMap fun q => q.2.map fun e => (p.1, q.1, e)

end MatrixGraph

namespace EdmondsKarp

/-- The neighbour scan of `find_shortest_path`, with the
`break 'outer` once the target id comes up. -/
def mfScan (target : Nat) :
    List (Nat × ResE) → Nat → List Nat → List Nat → List (Nat × Nat) →
    List Nat × List Nat × List (Nat × Nat) × Bool
  | [], _, vis, q, pred => (vis, q, pred, false)
  | (w, _) :: rest, current, vis, q, pred =>
      let st :=
        if vis.contains w then (vis, q, pred)
        else (vis ++ [w], q ++ [w], updateAssoc pred w current)
      if w = target then (st.1, st.2.1, st.2.2, true)
      else mfScan target rest current st.1 st.2.1 st.2.2

/-- The queue loop of `find_shortest_path`. -/
def mfBfsLoop (res : MatrixGraph ResE) (target : Nat) :
    Nat → List Nat → List Nat → List (Nat × Nat) →
    List Nat × List (Nat × Nat)
  | 0, _, vis, pred => (vis, pred)
  | _ + 1, [], vis, pred => (vis, pred)
  | fuel + 1, c :: qs, vis, pred =>
      let st := mfScan target (res.resAdj c) c vis qs pred
      if st.2.2.2 then (st.1, st.2.2.1)
      else mfBfsLoop res target fuel st.2.1 st.1 st.2.2.1

/-- Predecessor-chain path reconstruction (start to target order). -/
def mfPath (pred : List (Nat × Nat)) (start : Nat) :
    Nat → Nat → List Nat → Option (List Nat)
  | 0, _, _ => none
  | fuel + 1, current, acc =>
      if current = start then some (current :: acc)
      else
        match lookupAssoc pred current with
        | some p => mfPath pred start fuel p (current :: acc)
        | none => none

/-- `find_shortest_path`: BFS over arcs with remaining capacity,
reconstructing the vertex sequence when the target was reached. -/
def findShortestPath (res : MatrixGraph ResE) (start target : Nat) :
    Option (List Nat) :=
  let n := res.vertices.length
  let st := mfBfsLoop res target (n + 1) [start] [start]
    (updateAssoc [] start start)
  if st.1.contains target then mfPath st.2 start (n + 1) target []
  else none

/-- Consecutive pairs of a path (`path.windows(2)`). -/
def pathPairs (path : List Nat) : List (Nat × Nat) :=
  path.zip path.tail

/-- γ: the minimum remaining capacity along the path (the `expect` of
the source never fires: an augmenting path has at least one arc). -/
def pathMin (res : MatrixGraph ResE) (path : List Nat) : Int :=
  match (pathPairs path).map (fun p => ((res.cell p.1 p.2).getD ⟨0, false⟩).flow) with
  | [] => 0
  | x :: xs => xs.foldl min x

/-- Augment every arc of the path by γ: reverse arcs gain, forward
arcs lose. -/
def augment (res : MatrixGraph ResE) (path : List Nat) (γ : Int) :
    MatrixGraph ResE :=
  (pathPairs path).foldl
    (fun r p =>
      let e := (r.cell p.1 p.2).getD ⟨0, false⟩
      if e.isRes then r.setCell p.1 p.2 ⟨e.flow + γ, e.isRes⟩
      else r.setCell p.1 p.2 ⟨e.flow - γ, e.isRes⟩)
    res

/-- The augmentation loop (step 3-5). -/
def mfLoop (start target : Nat) : Nat → MatrixGraph ResE → MatrixGraph ResE
  | 0, res => res
  | fuel + 1, res =>
      match findShortestPath res start target with
      | none => res
      | some path => mfLoop start target fuel (augment res path (pathMin res path))

/-- `edmonds_karp(start, target, flow, max_flow)` with the residual
graph in the adjacency-matrix backend.  `start == target` hits a
`todo!()`.  The initial-flow zeroing is commented out in the source,
so input flow fields are only rewritten where a forward residual arc
survives the unvalidated batch construction. -/
def edmondsKarp (g : AdjListGraph FlowE) (start target : Nat) (fuel : Nat) :
    Outcome (AdjListGraph FlowE) :=
  if start = target then .panicked
  else
    let resEdges :=
      (g.allEdgesDirected.map fun t => (t.1, t.2.1, ResE.mk t.2.2.cap false)) ++
      (g.allEdgesDirected.map fun t => (t.2.1, t.1, ResE.mk 0 true))
    match MatrixGraph.fromVerticesAndEdges .Directed g.vertices resEdges with
    | .panicked => .panicked
    | .errored e => .errored e
    | .ok res₀ =>
        let res := mfLoop start target fuel res₀
        .ok ((res.allCells.filter fun t => ¬ t.2.2.isRes).foldl
          (fun gr t => gr.setFlowFromCap t.1 t.2.1 t.2.2.flow) g)

end EdmondsKarp

/-! ### Spec-side flow notions for the max-flow claim -/

namespace AdjListGraph

/-- Sum of the stored flow fields over arcs into `v`. -/
def flowInto (g : AdjListGraph FlowE) (v : Nat) : Int :=
  (g.allEdgesDirected.filter fun t => t.2.1 = v).foldl
    (fun acc t => acc + t.2.2.flow) 0

/-- Sum of the stored flow fields over arcs out of `v`. -/
def flowOutOf (g : AdjListGraph FlowE) (v : Nat) : Int :=
  (g.allEdgesDirected.filter fun t => t.1 = v).foldl
    (fun acc t => acc + t.2.2.flow) 0

/-- A feasible flow assignment `φ` for the network given by `g`'s arcs
and capacities: capacity bounds on every arc and conservation at every
internal vertex (inflow and outflow read off the arc list). -/
def IsFeasibleFlow (g : AdjListGraph FlowE) (φ : Nat → Nat → Int)
    (s t : Nat) : Prop :=
  (∀ e ∈ g.allEdgesDirected, 0 ≤ φ e.1 e.2.1 ∧ φ e.1 e.2.1 ≤ e.2.2.cap) ∧
  (∀ v ∈ g.vertices, v ≠ s → v ≠ t →
    ((g.allEdgesDirected.filter fun e => e.2.1 = v).foldl
      (fun acc e => acc + φ e.1 e.2.1) 0) =
    ((g.allEdgesDirected.filter fun e => e.1 = v).foldl
      (fun acc e => acc + φ e.1 e.2.1) 0))

/-- The value of an assignment: net flow into the sink. -/
def flowValueInto (g : AdjListGraph FlowE) (φ : Nat → Nat → Int) (t : Nat) : Int :=
  ((g.allEdgesDirected.filter fun e => e.2.1 = t).foldl
    (fun acc e => acc + φ e.1 e.2.1) 0) -
  ((g.allEdgesDirected.filter fun e => e.1 = t).foldl
    (fun acc e => acc + φ e.1 e.2.1) 0)

end AdjListGraph

/-! ## DFS iterator (src/algorithms/dfs_iter.rs)

Stack-based; pushed neighbours are explored last-in-first-out.  The
stack is modelled with its top at the list head, so `push_back` is a
prepend and `pop_back` takes the head. -/

namespace AdjListGraph

/-- Push the unvisited neighbours of `v` (in insertion order) onto the
stack, updating the discovered set as the loop does. -/
def dfsExpand (g : AdjListGraph E) (v : Nat) (visited stack : List Nat) :
    List Nat × List Nat :=
  (g.adjOf v).foldl
    (fun (st : List Nat × List Nat) p =>
      if st.1.contains p.1 then st else (st.1 ++ [p.1], p.1 :: st.2))
    (visited, stack)

/-- The DFS drain loop. -/
def dfsAux (g : AdjListGraph E) : Nat → List Nat → List Nat → List Nat
  | 0, _, _ => []
  | _ + 1, [], _ => []
  | fuel + 1, v :: rest, visited =>
      let st := g.dfsExpand v visited rest
      v :: g.dfsAux fuel st.2 st.1

/-- `dfs_iter(start)` collected (start assumed present — the callers
below guarantee it). -/
def dfsTraversal (g : AdjListGraph E) (s : Nat) : List Nat :=
  g.dfsAux g.vertices.length [s] [s]

end AdjListGraph

/-! ## TSP solvers (src/algorithms/tsp)

TSP instances are fully connected weighted graphs; the matrix backend
stores them with ids `0..n-1` and enumerates vertices and neighbours
in index order.  An instance is a vertex count `n` and a weight
function `w` (`get_edge(u,v).get_weight()`), with `Int` weights (a
valid instantiation of the Rust bounds, `/` truncating like i64). -/

namespace Tsp

/-- `get_initial_vertex(start?)`: chosen start plus the remaining
vertices in storage order; `none` when the graph is empty or the
requested start is absent (the caller then returns an empty path). -/
def getInitialVertex (n : Nat) (startOpt : Option Nat) :
    Option (Nat × List Nat) :=
  match startOpt with
  | some s => if s < n then some (s, (List.range n).filter (fun v => v ≠ s)) else none
  | none =>
      match List.range n with
      | [] => none
      | v :: rest => some (v, rest)

/-- Total cost of the `Path` rebuilt from a tour's vertex list via
`get_edge` on each consecutive window. -/
def pathCost (w : Nat → Nat → Int) (vs : List Nat) : Int :=
  ((vs.zip vs.tail).map fun p => w p.1 p.2).sum

/-- `remaining.swap(i, last); remaining.pop()`. -/
def swapPop (l : List Nat) (i : Nat) : List Nat :=
  (l.set i (l.getD (l.length - 1) 0)).dropLast

/-- The complete graph on `0..n-1` as an adjacency-list graph
(neighbour order = index order, as the matrix backend enumerates). -/
def completeGraph (n : Nat) (w : Nat → Nat → Int) : AdjListGraph Int :=
  ⟨List.range n,
   (List.range n).map fun v =>
     (v, ((List.range n).filter (fun u => u ≠ v)).map fun u => (u, w v u))⟩

/-- `tsp_brute_force`'s recursion.  The fuel is `remaining.length`
(the leaf test `current_path.len() == vertex_count` is equivalent on
the complete graphs the solver requires). -/
def bruteRec (w : Nat → Nat → Int) :
    Nat → Nat → List Nat → Int → List Nat → Option (Int × List Nat) →
    Option (Int × List Nat)
  | 0, current, path, cost, _, best =>
      let total := cost + w current path.headI
      (match best with
       | some (bc, bp) =>
           if total < bc then some (total, path ++ [path.headI]) else some (bc, bp)
       | none => some (total, path ++ [path.headI]))
  | fuel + 1, current, path, cost, remaining, best =>
      (List.range remaining.length).foldl
        (fun best i =>
          let next := remaining.getD i 0
          bruteRec w fuel next (path ++ [next]) (cost + w current next)
            (swapPop remaining i) best)
        best

/-- `tsp_brute_force(start?)`: the optimal tour's vertex list, `none`
for the empty-path returns. -/
def tspBruteForce (n : Nat) (w : Nat → Nat → Int) (startOpt : Option Nat) :
    Option (List Nat) :=
  match getInitialVertex n startOpt with
  | none => none
  | some (s, remaining) =>
      match bruteRec w remaining.length s [s] 0 remaining none with
      | some (_, vs) => some vs
      | none => none

/-- The two-cheapest scan of the branch-and-bound lower bound,
verbatim from the source: after both slots are filled, a weight lying
strictly between them updates neither slot, and the
`second_cheapest.is_none()` branch runs before the `<` comparison. -/
def twoCheap (ws : List Int) : Option Int × Option Int :=
  ws.foldl
    (fun (st : Option Int × Option Int) x =>
      match st.1 with
      | none => (some x, st.2)
      | some c =>
          let s₁ := match st.2 with | none => some x | some s => some s
          if x < c then (some x, some c) else (some c, s₁))
    (none, none)

/-- One remaining-vertex term of the lower bound: the two "cheapest"
edges into `rto` from the other remaining vertices, averaged with
truncating division. -/
def lbTerm (w : Nat → Nat → Int) (remaining : List Nat) (rto : Nat) : Int :=
  match twoCheap ((remaining.filter (fun v => v ≠ rto)).map fun rfrom => w rfrom rto) with
  | (some c, some s) => (c + s).tdiv 2
  | _ => 0

/-- The pruning bound: summed over the remaining vertices other than
`next`; zero when fewer than three vertices remain.  Edges to the
already-visited vertices (including the start) are never considered. -/
def lowerBound (w : Nat → Nat → Int) (remaining : List Nat) (next : Nat) : Int :=
  if 2 < remaining.length then
    ((remaining.filter (fun v => v ≠ next)).map fun rto => lbTerm w remaining rto).sum
  else 0

/-- `branch_and_bound`'s recursion (state restored after each branch,
so each iteration sees the original `remaining` order). -/
def bnbRec (w : Nat → Nat → Int) :
    Nat → Nat → List Nat → Int → List Nat → (Int × List Nat) →
    (Int × List Nat)
  | 0, current, path, cost, _, best =>
      let total := cost + w current path.headI
      if total < best.1 then (total, path ++ [path.headI]) else best
  | fuel + 1, current, path, cost, remaining, best =>
      (List.range remaining.length).foldl
        (fun best i =>
          let next := remaining.getD i 0
          let newCost := cost + w current next
          if best.1 ≤ newCost + lowerBound w remaining next then best
          else
            bnbRec w fuel next (path ++ [next]) newCost (swapPop remaining i) best)
        best

/-- `tsp_double_tree(start?)`: Prim MST from the start over the
complete graph, DFS vertex order of the MST, closed back to the
start. -/
def tspDoubleTree (n : Nat) (w : Nat → Nat → Int) (startOpt : Option Nat) :
    Option (List Nat) :=
  match getInitialVertex n startOpt with
  | none => none
  | some (s, _) =>
      match (completeGraph n w).mstPrim (some s) with
      | .ok mst => some (mst.dfsTraversal s ++ [s])
      | _ => none

/-- `tsp_branch_and_bound(start?)`: double-tree incumbent, then the
pruned search. -/
def tspBranchAndBound (n : Nat) (w : Nat → Nat → Int) (startOpt : Option Nat) :
    Option (List Nat) :=
  match getInitialVertex n startOpt with
  | none => none
  | some (s, remaining) =>
      match tspDoubleTree n w (some s) with
      | none => none
      | some dtVs =>
          some (bnbRec w remaining.length s [s] 0 remaining
            (pathCost w dtVs, dtVs)).2

end Tsp

/-! ## Concrete instances used by the theorems below -/

/-- A directed flow network with the antiparallel pair `0 ↔ 1` and the
arc `1 → 2`, all of capacity 1 and flow 0; source 0, sink 2.  Its
maximum flow is 1 (route `0 → 1 → 2`). -/
def exFlowG : AdjListGraph FlowE :=
  ⟨[0, 1, 2],
   [(0, [(1, ⟨1, 0⟩)]),
    (1, [(0, ⟨1, 0⟩), (2, ⟨1, 0⟩)])]⟩

/-- A feasible flow of value 1 for `exFlowG`. -/
def exFlowPhi : Nat → Nat → Int :=
  fun u v => if (u = 0 ∧ v = 1) ∨ (u = 1 ∧ v = 2) then 1 else 0

/-- An undirected 4-vertex graph whose third-cheapest edge closes a
cycle: Kruskal's edge loop meets `union`'s `NotDisjunct` error before
the tree is complete. -/
def exKruskalG : AdjListGraph Int :=
  ⟨[0, 1, 2, 3],
   [(0, [(1, 1), (2, 3)]),
    (1, [(0, 1), (2, 2)]),
    (2, [(1, 2), (0, 3), (3, 4)]),
    (3, [(2, 4)])]⟩

/-- Weight matrix of a fully connected 5-vertex TSP instance (all
pairwise weights distinct, symmetric) on which branch-and-bound prunes
the optimal tour. -/
def exTspM : List (List Int) :=
  [[0, 201, 502, 803, 1104],
   [201, 0, 2007, 108, 409],
   [502, 2007, 0, 1613, 2714],
   [803, 108, 1613, 0, 1219],
   [1104, 409, 2714, 1219, 0]]

/-- Its weight function. -/
def exTspW : Nat → Nat → Int := fun i j => (exTspM.getD i []).getD j 0

/-- A 2-vertex directed graph with a negative cycle `0 → 1 → 0`
reachable from 0 (used to witness the Bellman-Ford claim). -/
def exNegCycleG : AdjListGraph Int :=
  ⟨[0, 1], [(0, [(1, -1)]), (1, [(0, -1)])]⟩

/-- The six-vertex test tree of the BFS ordering scenario
(edges 0→1, 0→2, 2→3, 2→4, 3→5). -/
def exBfsTree : AdjListGraph Unit :=
  ⟨[0, 1, 2, 3, 4, 5],
   [(0, [(1, ()), (2, ())]),
    (2, [(3, ()), (4, ())]),
    (3, [(5, ())])]⟩

/-- The residual matrix graph `edmonds_karp` builds for `exFlowG`:
the reverse arcs of the antiparallel pair have overwritten both
forward arcs, leaving only `1 → 2` with remaining capacity. -/
def exFlowRes : MatrixGraph ResE :=
  ⟨[0, 1, 2],
   [[none, some ⟨0, true⟩, none],
    [some ⟨0, true⟩, none, some ⟨1, false⟩],
    [none, some ⟨0, true⟩, none]]⟩

/-! # Theorems -/

/-! ## Generic helper lemmas -/

/-- Once no augmenting path exists, the augmentation loop is a
fixpoint for every fuel. -/
theorem mfLoop_fix {res : MatrixGraph ResE} {s t : Nat}
    (h : EdmondsKarp.findShortestPath res s t = none) :
    ∀ fuel, EdmondsKarp.mfLoop s t fuel res = res := by
  intro fuel
  cases fuel with
  | zero => rfl
  | succ n => simp [EdmondsKarp.mfLoop, h]

/-- A batch edge write with in-range endpoints succeeds and does not
touch the vertex vector. -/
theorem writeBatchEdge_some {E : Type} (dir : Direction) (n : Nat)
    (g : MatrixGraph E) (t : Nat × Nat × E)
    (h : t.1 < n ∧ t.2.1 < n) :
    ∃ g', MatrixGraph.writeBatchEdge dir n g t = some g' ∧
      g'.vertices = g.vertices := by
  cases dir with
  | Directed =>
      exact ⟨g.setCell t.1 t.2.1 t.2.2, by simp [MatrixGraph.writeBatchEdge, h], rfl⟩
  | Undirected =>
      exact ⟨(g.setCell t.1 t.2.1 t.2.2).setCell t.2.1 t.1 t.2.2,
        by simp [MatrixGraph.writeBatchEdge, h], rfl⟩

/-- Folding in-range batch edges succeeds and preserves the vertex
vector. -/
theorem foldBatch_some {E : Type} (dir : Direction) (n : Nat) :
    ∀ (es : List (Nat × Nat × E)) (g : MatrixGraph E),
      (∀ t ∈ es, t.1 < n ∧ t.2.1 < n) →
      ∃ g', es.foldlM (fun g t => MatrixGraph.writeBatchEdge dir n g t) g = some g' ∧
        g'.vertices = g.vertices := by
  intro es
  induction es with
  | nil => exact fun g _ => ⟨g, rfl, rfl⟩
  | cons t rest ih =>
      intro g hin
      obtain ⟨g₁, hw, hv⟩ := writeBatchEdge_some dir n g t (hin t (by simp))
      obtain ⟨g₂, hf, hv₂⟩ := ih g₁ (fun t' ht' => hin t' (by simp [ht']))
      exact ⟨g₂, by simp [List.foldlM_cons, hw, hf], by rw [hv₂, hv]⟩

theorem lookupAssoc_eq_some_mem {l : List (Nat × α)} {k : Nat} {v : α}
    (h : lookupAssoc l k = some v) : (k, v) ∈ l := by
  induction l with
  | nil => simp [lookupAssoc] at h
  | cons p rest ih =>
      by_cases hk : p.1 = k
      · obtain ⟨k₀, v₀⟩ := p
        simp only [lookupAssoc, if_pos hk] at h
        cases hk
        cases h
        exact List.mem_cons_self _ _
      · obtain ⟨k₀, v₀⟩ := p
        simp only [lookupAssoc, if_neg hk] at h
        exact List.mem_cons_of_mem _ (ih h)

theorem lookupAssoc_update_self (l : List (Nat × α)) (k : Nat) (v : α) :
    lookupAssoc (updateAssoc l k v) k = some v := by
  induction l with
  | nil => simp [updateAssoc, lookupAssoc]
  | cons p rest ih =>
      obtain ⟨k₀, v₀⟩ := p
      by_cases hk : k₀ = k
      · simp [updateAssoc, lookupAssoc, hk]
      · simp [updateAssoc, lookupAssoc, hk, ih]

theorem lookupAssoc_update_ne (l : List (Nat × α)) {k k' : Nat} (v : α)
    (h : k ≠ k') : lookupAssoc (updateAssoc l k v) k' = lookupAssoc l k' := by
  induction l with
  | nil => simp [updateAssoc, lookupAssoc, h]
  | cons p rest ih =>
      obtain ⟨k₀, v₀⟩ := p
      by_cases hk : k₀ = k
      · subst hk
        simp [updateAssoc, lookupAssoc, h, if_neg (by omega : ¬ k₀ = k')]
      · simp only [updateAssoc, if_neg hk, lookupAssoc]
        by_cases hk' : k₀ = k'
        · simp [hk']
        · simp [hk', ih]

/-- `contains` on `List Nat` agrees with membership. -/
theorem nat_contains_iff {l : List Nat} {x : Nat} :
    l.contains x = true ↔ x ∈ l := by
  simp [List.contains]

/-! ## BFS correctness (for C5) -/

namespace AdjListGraph

variable {E : Type}

theorem wf_adj_target {g : AdjListGraph E} (hwf : g.WF) {v w : Nat}
    (hw : w ∈ (g.adjOf v).map Prod.fst) : w ∈ g.vertices := by
  unfold AdjListGraph.adjOf at hw
  cases hl : lookupAssoc g.adjacency v with
  | none => rw [hl] at hw; simp at hw
  | some l =>
      rw [hl] at hw
      simp only [Option.getD_some, List.mem_map] at hw
      obtain ⟨q, hq, hq1⟩ := hw
      exact hq1 ▸ hwf.targets _ (lookupAssoc_eq_some_mem hl) q hq

theorem reach_mem_vertices {g : AdjListGraph E} (hwf : g.WF) {s v : Nat}
    (hs : s ∈ g.vertices) (h : g.Reach s v) : v ∈ g.vertices := by
  obtain ⟨d, hd⟩ := h
  induction hd with
  | refl => exact hs
  | tail _ hw _ => exact wf_adj_target hwf hw

theorem bdist_le_of_reachLen {g : AdjListGraph E} {s v : Nat} {d : Nat}
    (h : g.ReachLen s v d) : g.bdist s v ≤ (d : ℕ∞) := by
  exact sInf_le ⟨d, h, rfl⟩

theorem le_bdist {g : AdjListGraph E} {s v : Nat} {c : ℕ∞}
    (h : ∀ d : Nat, g.ReachLen s v d → c ≤ (d : ℕ∞)) : c ≤ g.bdist s v := by
  refine le_sInf ?_
  rintro x ⟨d, hd, rfl⟩
  exact h d hd

/-- The neighbour-expansion fold appends the same block of fresh ids
to the discovered set and the queue. -/
theorem bfsExpandFold_spec (g : AdjListGraph E) :
    ∀ (l : List (Nat × E)) (vis q : List Nat),
      ∃ t : List Nat,
        l.foldl (fun (st : List Nat × List Nat) p =>
          if st.1.contains p.1 then st else (st.1 ++ [p.1], st.2 ++ [p.1]))
          (vis, q) = (vis ++ t, q ++ t) ∧
        t.Nodup ∧
        (∀ x ∈ t, x ∉ vis ∧ x ∈ l.map Prod.fst) ∧
        (∀ p ∈ l, p.1 ∈ vis ++ t) := by
  intro l
  induction l with
  | nil =>
      intro vis q
      exact ⟨[], by simp, by simp, by simp, by simp⟩
  | cons p rest ih =>
      intro vis q
      by_cases hp : p.1 ∈ vis
      · obtain ⟨t, hfold, hnd, hfresh, hcover⟩ := ih vis q
        refine ⟨t, ?_, hnd, ?_, ?_⟩
        · simpa [List.foldl_cons, hp] using hfold
        · exact fun x hx => ⟨(hfresh x hx).1, by simp [(hfresh x hx).2]⟩
        · intro p' hp'
          rcases List.mem_cons.mp hp' with rfl | hp'
          · exact List.mem_append_left _ hp
          · exact hcover p' hp'
      · obtain ⟨t, hfold, hnd, hfresh, hcover⟩ := ih (vis ++ [p.1]) (q ++ [p.1])
        have hnotc : (vis.contains p.1) = false := by
          rw [← Bool.not_eq_true, nat_contains_iff]; exact hp
        refine ⟨p.1 :: t, ?_, ?_, ?_, ?_⟩
        · rw [List.foldl_cons]
          simp only [hnotc, Bool.false_eq_true, if_false]
          rw [hfold]
          simp
        · refine List.nodup_cons.mpr ⟨fun hmem => ?_, hnd⟩
          exact (hfresh _ hmem).1 (by simp)
        · intro x hx
          rcases List.mem_cons.mp hx with rfl | hx
          · exact ⟨hp, by simp⟩
          · obtain ⟨h1, h2⟩ := hfresh x hx
            exact ⟨fun hv => h1 (by simp [hv]), by simp [h2]⟩
        · intro p' hp'
          rcases List.mem_cons.mp hp' with rfl | hp'
          · simp
          · have := hcover p' hp'
            simpa [List.append_assoc] using this

/-- Restatement for `bfsExpand`. -/
theorem bfsExpand_spec (g : AdjListGraph E) (v : Nat) (vis q : List Nat) :
    ∃ t : List Nat,
      g.bfsExpand v vis q = (vis ++ t, q ++ t) ∧
      t.Nodup ∧
      (∀ x ∈ t, x ∉ vis ∧ x ∈ (g.adjOf v).map Prod.fst) ∧
      (∀ p ∈ g.adjOf v, p.1 ∈ vis ++ t) :=
  bfsExpandFold_spec g (g.adjOf v) vis q

/-- Any walk from `s` to a not-yet-discovered vertex passes through a
queue element one step before its length runs out: the discovered set
minus the queue is neighbour-closed. -/
theorem bfs_crossing {g : AdjListGraph E} {s : Nat}
    {out queue visited : List Nat}
    (hsplit : ∀ x, x ∈ visited ↔ x ∈ out ++ queue)
    (hclosed : ∀ v ∈ out, ∀ p ∈ g.adjOf v, p.1 ∈ visited)
    (hsvis : s ∈ visited) :
    ∀ (d : Nat) (x : Nat), g.ReachLen s x d → x ∉ visited →
      ∃ q ∈ queue, g.bdist s q + 1 ≤ (d : ℕ∞) := by
  intro d
  induction d with
  | zero =>
      intro x hx hnx
      cases hx
      exact absurd hsvis hnx
  | succ n ih =>
      intro x hx hnx
      cases hx with
      | tail hv hw =>
          rename_i v
          by_cases hvvis : v ∈ visited
          · rcases List.mem_append.mp ((hsplit v).mp hvvis) with hvout | hvq
            · obtain ⟨p, hp, hp1⟩ := List.mem_map.mp hw
              exact absurd (hp1 ▸ hclosed v hvout p hp) hnx
            · refine ⟨v, hvq, ?_⟩
              have h1 : g.bdist s v ≤ (n : ℕ∞) := bdist_le_of_reachLen hv
              calc g.bdist s v + 1 ≤ (n : ℕ∞) + 1 := add_le_add_right h1 1
                _ = ((n + 1 : Nat) : ℕ∞) := by rw [Nat.cast_add, Nat.cast_one]
          · obtain ⟨q, hq, hqd⟩ := ih v hv hvvis
            refine ⟨q, hq, le_trans hqd ?_⟩
            exact_mod_cast Nat.le_succ n

/-- The breadth distance is attained by an actual walk when the target
is reachable. -/
theorem bdist_attained {g : AdjListGraph E} {s v : Nat} (h : g.Reach s v) :
    ∃ d : Nat, g.bdist s v = (d : ℕ∞) ∧ g.ReachLen s v d ∧
      ∀ e : Nat, g.ReachLen s v e → d ≤ e := by
  have hne : (setOf fun d => g.ReachLen s v d).Nonempty := h
  have hmem := Nat.sInf_mem hne
  refine ⟨sInf (setOf fun d => g.ReachLen s v d), ?_, hmem,
    fun e he => Nat.sInf_le he⟩
  refine le_antisymm (bdist_le_of_reachLen hmem) (le_bdist ?_)
  intro d hd
  exact_mod_cast Nat.sInf_le hd

/-- The leaf of the BFS loop: with an empty queue, the discovered set
is closed, hence contains every reachable vertex. -/
theorem bfs_leaf {g : AdjListGraph E} {s : Nat} {visited out : List Nat}
    (h1 : visited = out)
    (h2 : visited.Nodup)
    (h3 : ∀ x ∈ visited, g.Reach s x)
    (h4 : ∀ v ∈ out, ∀ p ∈ g.adjOf v, p.1 ∈ visited)
    (h5 : visited.Pairwise (fun a b => g.bdist s a ≤ g.bdist s b))
    (h7 : s ∈ visited) :
    out.Nodup ∧ (∀ x, x ∈ out ↔ g.Reach s x) ∧
      out.Pairwise (fun a b => g.bdist s a ≤ g.bdist s b) := by
  subst h1
  refine ⟨h2, fun x => ⟨h3 x, ?_⟩, h5⟩
  rintro ⟨d, hd⟩
  induction hd with
  | refl => exact h7
  | tail hv hw ihv =>
      obtain ⟨p, hp, hp1⟩ := List.mem_map.mp hw
      exact hp1 ▸ h4 _ ihv p hp

/-- The BFS loop invariant and its conclusions, by induction on the
fuel.  `out` is the already-yielded prefix; the conclusions describe
the completed yield sequence `out ++ bfsAux fuel queue visited`. -/
theorem bfsAux_spec {g : AdjListGraph E} (hwf : g.WF) (s : Nat) :
    ∀ (fuel : Nat) (queue visited out : List Nat),
      visited = out ++ queue →
      visited.Nodup →
      (∀ x ∈ visited, g.Reach s x) →
      (∀ v ∈ out, ∀ p ∈ g.adjOf v, p.1 ∈ visited) →
      visited.Pairwise (fun a b => g.bdist s a ≤ g.bdist s b) →
      (∀ a ∈ queue, ∀ b ∈ queue, g.bdist s b ≤ g.bdist s a + 1) →
      s ∈ visited →
      (∀ x ∈ visited, x ∈ g.vertices) →
      queue.length + (g.vertices.toFinset \ visited.toFinset).card ≤ fuel →
      (out ++ g.bfsAux fuel queue visited).Nodup ∧
      (∀ x, x ∈ out ++ g.bfsAux fuel queue visited ↔ g.Reach s x) ∧
      (out ++ g.bfsAux fuel queue visited).Pairwise
        (fun a b => g.bdist s a ≤ g.bdist s b) := by
  intro fuel
  induction fuel with
  | zero =>
      intro queue visited out h1 h2 h3 h4 h5 h6 h7 h8 hfuel
      have hq : queue = [] := List.eq_nil_of_length_eq_zero (by omega)
      subst hq
      have h1' : visited = out := by simpa using h1
      simpa [AdjListGraph.bfsAux] using bfs_leaf h1' h2 h3 h4 h5 h7
  | succ fuel ih =>
      intro queue visited out h1 h2 h3 h4 h5 h6 h7 h8 hfuel
      match queue with
      | [] =>
          have h1' : visited = out := by simpa using h1
          simpa [AdjListGraph.bfsAux] using bfs_leaf h1' h2 h3 h4 h5 h7
      | v :: qs =>
          obtain ⟨t, hst, htnd, htfresh, htcover⟩ := g.bfsExpand_spec v visited qs
          have hrun : g.bfsAux (fuel + 1) (v :: qs) visited =
              v :: g.bfsAux fuel (qs ++ t) (visited ++ t) := by
            simp only [AdjListGraph.bfsAux, hst]
          have hvvis : v ∈ visited := by rw [h1]; simp
          have hvreach : g.Reach s v := h3 v hvvis
          obtain ⟨d₀, hd₀, hwalk₀, _⟩ := bdist_attained hvreach
          -- every fresh vertex sits one step beyond v
          have hupper : ∀ w ∈ t, g.bdist s w ≤ g.bdist s v + 1 := by
            intro w hw
            have hwd : g.ReachLen s w (d₀ + 1) :=
              .tail hwalk₀ (htfresh w hw).2
            calc g.bdist s w ≤ ((d₀ + 1 : Nat) : ℕ∞) := bdist_le_of_reachLen hwd
              _ = g.bdist s v + 1 := by rw [hd₀, Nat.cast_add, Nat.cast_one]
          have hqs_ge : ∀ q ∈ v :: qs, g.bdist s v ≤ g.bdist s q := by
            have hpw : (v :: qs).Pairwise (fun a b => g.bdist s a ≤ g.bdist s b) :=
              (List.pairwise_append.mp (h1 ▸ h5)).2.1
            intro q hq
            rcases List.mem_cons.mp hq with rfl | hq
            · exact le_refl _
            · exact (List.pairwise_cons.mp hpw).1 q hq
          have hlower : ∀ w ∈ t, g.bdist s v + 1 ≤ g.bdist s w := by
            intro w hw
            refine le_bdist ?_
            intro d hd
            obtain ⟨q, hq, hqd⟩ := bfs_crossing (fun x => by rw [h1])
              h4 h7 d w hd (htfresh w hw).1
            calc g.bdist s v + 1 ≤ g.bdist s q + 1 :=
                  add_le_add_right (hqs_ge q hq) 1
              _ ≤ (d : ℕ∞) := hqd
          -- facts feeding every invariant
          have hvisited_le : ∀ a ∈ visited, ∀ w ∈ t, g.bdist s a ≤ g.bdist s w := by
            intro a ha w hw
            have hbound : g.bdist s a ≤ g.bdist s v + 1 := by
              rw [h1] at ha
              rcases List.mem_append.mp ha with haout | haq
              · have : g.bdist s a ≤ g.bdist s v := by
                  have := List.pairwise_append.mp (h1 ▸ h5)
                  exact this.2.2 a haout v (by simp)
                exact le_trans this (self_le_add_right _ _)
              · exact h6 v (by simp) a haq
            exact le_trans hbound (hlower w hw)
          have htvert : ∀ x ∈ t, x ∈ g.vertices := by
            intro x hx
            exact wf_adj_target hwf (htfresh x hx).2
          -- the nine invariants for the tail call
          have i1 : visited ++ t = (out ++ [v]) ++ (qs ++ t) := by
            rw [h1]; simp
          have i2 : (visited ++ t).Nodup := by
            refine List.Nodup.append h2 htnd ?_
            intro a ha hat
            exact (htfresh a hat).1 ha
          have i3 : ∀ x ∈ visited ++ t, g.Reach s x := by
            intro x hx
            rcases List.mem_append.mp hx with hx | hx
            · exact h3 x hx
            · exact ⟨d₀ + 1, .tail hwalk₀ (htfresh x hx).2⟩
          have i4 : ∀ u ∈ out ++ [v], ∀ p ∈ g.adjOf u, p.1 ∈ visited ++ t := by
            intro u hu p hp
            rcases List.mem_append.mp hu with hu | hu
            · exact List.mem_append_left _ (h4 u hu p hp)
            · have huv : u = v := by simpa using hu
              subst huv
              exact htcover p hp
          have i5 : (visited ++ t).Pairwise (fun a b => g.bdist s a ≤ g.bdist s b) := by
            rw [List.pairwise_append]
            refine ⟨h5, ?_, hvisited_le⟩
            refine List.pairwise_of_forall_mem_list ?_
            intro a ha b hb
            exact le_trans (hupper a ha) (hlower b hb)
          have i6 : ∀ a ∈ qs ++ t, ∀ b ∈ qs ++ t, g.bdist s b ≤ g.bdist s a + 1 := by
            intro a ha b hb
            rcases List.mem_append.mp ha with ha | ha <;>
              rcases List.mem_append.mp hb with hb | hb
            · exact h6 a (by simp [ha]) b (by simp [hb])
            · calc g.bdist s b ≤ g.bdist s v + 1 := hupper b hb
                _ ≤ g.bdist s a + 1 := add_le_add_right (hqs_ge a (by simp [ha])) 1
            · calc g.bdist s b ≤ g.bdist s v + 1 := h6 v (by simp) b (by simp [hb])
                _ ≤ g.bdist s a := hlower a ha
                _ ≤ g.bdist s a + 1 := self_le_add_right _ _
            · calc g.bdist s b ≤ g.bdist s v + 1 := hupper b hb
                _ ≤ g.bdist s a := hlower a ha
                _ ≤ g.bdist s a + 1 := self_le_add_right _ _
          have i7 : s ∈ visited ++ t := List.mem_append_left _ h7
          have i8 : ∀ x ∈ visited ++ t, x ∈ g.vertices := by
            intro x hx
            rcases List.mem_append.mp hx with hx | hx
            · exact h8 x hx
            · exact htvert x hx
          have i9 : (qs ++ t).length +
              (g.vertices.toFinset \ (visited ++ t).toFinset).card ≤ fuel := by
            have hsub : t.toFinset ⊆ g.vertices.toFinset \ visited.toFinset := by
              intro x hx
              rw [List.mem_toFinset] at hx
              rw [Finset.mem_sdiff, List.mem_toFinset, List.mem_toFinset]
              exact ⟨htvert x hx, (htfresh x hx).1⟩
            have hset : g.vertices.toFinset \ (visited ++ t).toFinset =
                (g.vertices.toFinset \ visited.toFinset) \ t.toFinset := by
              ext x
              simp only [Finset.mem_sdiff, List.toFinset_append, Finset.mem_union]
              tauto
            have hcard : (g.vertices.toFinset \ (visited ++ t).toFinset).card =
                (g.vertices.toFinset \ visited.toFinset).card - t.length := by
              rw [hset, Finset.card_sdiff hsub, List.toFinset_card_of_nodup htnd]
            have hle : t.length ≤ (g.vertices.toFinset \ visited.toFinset).card := by
              calc t.length = t.toFinset.card := (List.toFinset_card_of_nodup htnd).symm
                _ ≤ _ := Finset.card_le_card hsub
            have hq : (v :: qs).length +
                (g.vertices.toFinset \ visited.toFinset).card ≤ fuel + 1 := hfuel
            simp only [List.length_append, List.length_cons] at hq ⊢
            omega
          obtain ⟨c1, c2, c3⟩ := ih (qs ++ t) (visited ++ t) (out ++ [v])
            i1 i2 i3 i4 i5 i6 i7 i8 i9
          rw [hrun]
          refine ⟨?_, ?_, ?_⟩
          · simpa using c1
          · intro x
            have := c2 x
            simpa using this
          · simpa using c3

end AdjListGraph

/-! ## Bellman-Ford correctness (for C6) -/

namespace AdjListGraph

/-- A single relaxation either leaves the state untouched or updates
the target with a strictly smaller cost and records it as changed. -/
theorem bfRelax_shape (st : BFState) (v w : Nat) (wt : Int) :
    bfRelax st (v, w, wt) = st ∨
    ∃ cv : Int, st.costs v = some cv ∧
      oc (some (cv + wt)) < oc (st.costs w) ∧
      bfRelax st (v, w, wt) =
        ⟨Function.update st.costs w (some (cv + wt)),
         Function.update st.preds w (some v),
         st.changed ++ [w]⟩ := by
  unfold bfRelax
  simp only
  cases hcv : st.costs v with
  | none => exact Or.inl rfl
  | some cv =>
      cases hcw : st.costs w with
      | none =>
          refine Or.inr ⟨cv, rfl, ?_, rfl⟩
          simpa [oc, ← WithTop.coe_add] using WithTop.coe_lt_top (cv + wt)
      | some cw =>
          by_cases hlt : cv + wt < cw
          · refine Or.inr ⟨cv, rfl, ?_, by simp [hlt]⟩
            simpa [oc, ← WithTop.coe_add] using WithTop.coe_lt_coe.mpr hlt
          · simp [hlt]

theorem bfRelax_mono (st : BFState) (v w : Nat) (wt : Int) (x : Nat) :
    oc ((bfRelax st (v, w, wt)).costs x) ≤ oc (st.costs x) := by
  rcases bfRelax_shape st v w wt with h | ⟨cv, hcv, hlt, h⟩
  · rw [h]
  · rw [h]
    by_cases hx : x = w
    · subst hx
      simp only [Function.update_same]
      exact le_of_lt hlt
    · simp [Function.update_noteq hx]

theorem bfRelax_bound (st : BFState) (v w : Nat) (wt : Int) :
    oc ((bfRelax st (v, w, wt)).costs w) ≤ oc (st.costs v) + wt := by
  unfold bfRelax
  simp only
  cases hcv : st.costs v with
  | none => simp [oc]
  | some cv =>
      cases hcw : st.costs w with
      | none =>
          simp only [Function.update_same, hcw]
          simp [oc, ← WithTop.coe_add]
      | some cw =>
          by_cases hlt : cv + wt < cw
          · simp only [hlt, if_true, Function.update_same]
            simp [oc, ← WithTop.coe_add]
          · simp only [hlt, if_false, hcw]
            push_neg at hlt
            simpa [oc, ← WithTop.coe_add] using hlt

theorem bfRelax_changed_extend (st : BFState) (v w : Nat) (wt : Int) :
    ∃ tl, (bfRelax st (v, w, wt)).changed = st.changed ++ tl := by
  rcases bfRelax_shape st v w wt with h | ⟨cv, _, _, h⟩
  · exact ⟨[], by rw [h]; simp⟩
  · exact ⟨[w], by rw [h]⟩

theorem bfRelax_changed_of_ne (st : BFState) (v w : Nat) (wt : Int) (x : Nat)
    (h : (bfRelax st (v, w, wt)).costs x ≠ st.costs x) :
    x ∈ (bfRelax st (v, w, wt)).changed := by
  rcases bfRelax_shape st v w wt with hs | ⟨cv, hcv, hlt, hs⟩
  · rw [hs] at h; exact absurd rfl h
  · rw [hs] at h ⊢
    by_cases hx : x = w
    · subst hx; simp
    · have h' : Function.update st.costs w (some (cv + wt)) x ≠ st.costs x := h
      rw [Function.update_noteq hx] at h'
      exact absurd rfl h'

theorem bfRelax_progress (st : BFState) (v w : Nat) (wt : Int) :
    bfRelax st (v, w, wt) = st ∨
    ∃ x, oc ((bfRelax st (v, w, wt)).costs x) < oc (st.costs x) := by
  rcases bfRelax_shape st v w wt with h | ⟨cv, hcv, hlt, h⟩
  · exact Or.inl h
  · refine Or.inr ⟨w, ?_⟩
    rw [h]
    simpa using hlt

/-- Cost soundness: a relaxation along a stored arc keeps every finite
cost the weight of an actual walk from `s`. -/
theorem bfRelax_sound {g : AdjListGraph Int} {s : Nat} (st : BFState)
    (v w : Nat) (wt : Int) (hw : (w, wt) ∈ g.adjOf v)
    (hst : ∀ y c, st.costs y = some c → ∃ steps, WalkL g s y steps ∧ wcost steps = c) :
    ∀ y c, (bfRelax st (v, w, wt)).costs y = some c →
      ∃ steps, WalkL g s y steps ∧ wcost steps = c := by
  rcases bfRelax_shape st v w wt with h | ⟨cv, hcv, hlt, h⟩
  · rw [h]; exact hst
  · rw [h]
    intro y c hy
    have hy' : Function.update st.costs w (some (cv + wt)) y = some c := hy
    by_cases hx : y = w
    · subst hx
      rw [Function.update_same] at hy'
      obtain ⟨steps, hwalk, hcost⟩ := hst v cv hcv
      have hc' : (List.map Prod.snd steps).sum = cv := hcost
      cases hy'
      exact ⟨steps ++ [(y, wt)], .tail hwalk hw, by simp [wcost, hc']⟩
    · rw [Function.update_noteq hx] at hy'
      exact hst y c hy'

/-! ### Fold-level relaxation lemmas -/

theorem bfFold_mono (ts : List (Nat × Nat × Int)) :
    ∀ (st : BFState) (x : Nat),
      oc ((ts.foldl bfRelax st).costs x) ≤ oc (st.costs x) := by
  induction ts with
  | nil => intro st x; exact le_refl _
  | cons t ts ih =>
      intro st x
      obtain ⟨v, w, wt⟩ := t
      exact le_trans (ih (bfRelax st (v, w, wt)) x) (bfRelax_mono st v w wt x)

theorem bfFold_bound (ts : List (Nat × Nat × Int)) :
    ∀ (st : BFState) (v w : Nat) (wt : Int), (v, w, wt) ∈ ts →
      oc ((ts.foldl bfRelax st).costs w) ≤ oc (st.costs v) + wt := by
  induction ts with
  | nil => intro st v w wt h; simp at h
  | cons t ts ih =>
      intro st v w wt h
      obtain ⟨a, b, c⟩ := t
      rw [List.foldl_cons]
      rcases List.mem_cons.mp h with heq | hmem
      · cases heq
        calc oc ((ts.foldl bfRelax (bfRelax st (v, w, wt))).costs w)
            ≤ oc ((bfRelax st (v, w, wt)).costs w) := bfFold_mono ts _ w
          _ ≤ oc (st.costs v) + wt := bfRelax_bound st v w wt
      · calc oc ((ts.foldl bfRelax (bfRelax st (a, b, c))).costs w)
            ≤ oc ((bfRelax st (a, b, c)).costs v) + wt := ih _ v w wt hmem
          _ ≤ oc (st.costs v) + wt :=
              add_le_add_right (bfRelax_mono st a b c v) _

theorem bfFold_changed_extend (ts : List (Nat × Nat × Int)) :
    ∀ (st : BFState), ∃ tl, (ts.foldl bfRelax st).changed = st.changed ++ tl := by
  induction ts with
  | nil => intro st; exact ⟨[], by simp⟩
  | cons t ts ih =>
      intro st
      obtain ⟨v, w, wt⟩ := t
      obtain ⟨tl₁, h₁⟩ := bfRelax_changed_extend st v w wt
      obtain ⟨tl₂, h₂⟩ := ih (bfRelax st (v, w, wt))
      exact ⟨tl₁ ++ tl₂, by rw [List.foldl_cons, h₂, h₁, List.append_assoc]⟩

theorem bfFold_changed_of_ne (ts : List (Nat × Nat × Int)) :
    ∀ (st : BFState) (x : Nat), (ts.foldl bfRelax st).costs x ≠ st.costs x →
      x ∈ (ts.foldl bfRelax st).changed := by
  induction ts with
  | nil => intro st x h; exact absurd rfl h
  | cons t ts ih =>
      intro st x h
      obtain ⟨v, w, wt⟩ := t
      rw [List.foldl_cons] at h ⊢
      by_cases hmid : (ts.foldl bfRelax (bfRelax st (v, w, wt))).costs x =
          (bfRelax st (v, w, wt)).costs x
      · have hne : (bfRelax st (v, w, wt)).costs x ≠ st.costs x := by
          intro he; rw [hmid, he] at h; exact h rfl
        have hx := bfRelax_changed_of_ne st v w wt x hne
        obtain ⟨tl, htl⟩ := bfFold_changed_extend ts (bfRelax st (v, w, wt))
        rw [htl]
        exact List.mem_append_left _ hx
      · exact ih _ x hmid

theorem bfFold_progress (ts : List (Nat × Nat × Int)) :
    ∀ (st : BFState), ts.foldl bfRelax st = st ∨
      ∃ x, oc ((ts.foldl bfRelax st).costs x) < oc (st.costs x) := by
  induction ts with
  | nil => intro st; exact Or.inl rfl
  | cons t ts ih =>
      intro st
      obtain ⟨v, w, wt⟩ := t
      rw [List.foldl_cons]
      rcases bfRelax_progress st v w wt with heq | ⟨x, hx⟩
      · rw [heq]; exact ih st
      · refine Or.inr ⟨x, lt_of_le_of_lt ?_ hx⟩
        exact bfFold_mono ts _ x

theorem bfFold_sound {g : AdjListGraph Int} {s : Nat}
    (ts : List (Nat × Nat × Int)) :
    ∀ (st : BFState),
      (∀ t ∈ ts, (t.2.1, t.2.2) ∈ g.adjOf t.1) →
      (∀ y c, st.costs y = some c → ∃ steps, g.WalkL s y steps ∧ wcost steps = c) →
      ∀ y c, (ts.foldl bfRelax st).costs y = some c →
        ∃ steps, g.WalkL s y steps ∧ wcost steps = c := by
  induction ts with
  | nil => intro st _ hst; exact hst
  | cons t ts ih =>
      intro st hleg hst
      obtain ⟨v, w, wt⟩ := t
      rw [List.foldl_cons]
      exact ih _ (fun t ht => hleg t (List.mem_cons_of_mem _ ht))
        (bfRelax_sound st v w wt (hleg (v, w, wt) (by simp)) hst)

/-! ### Pass- and iteration-level lemmas -/

theorem frontierEdges_legal (g : AdjListGraph Int) (fr : List Nat) :
    ∀ t ∈ g.frontierEdges fr, (t.2.1, t.2.2) ∈ g.adjOf t.1 := by
  intro t ht
  unfold AdjListGraph.frontierEdges at ht
  rw [List.mem_flatMap] at ht
  obtain ⟨v, _, ht⟩ := ht
  rw [List.mem_map] at ht
  obtain ⟨p, hp, rfl⟩ := ht
  simpa using hp

theorem frontierEdges_mem (g : AdjListGraph Int) {fr : List Nat} {v w : Nat}
    {wt : Int} (hv : v ∈ fr) (hw : (w, wt) ∈ g.adjOf v) :
    (v, w, wt) ∈ g.frontierEdges fr := by
  unfold AdjListGraph.frontierEdges
  rw [List.mem_flatMap]
  exact ⟨v, hv, List.mem_map.mpr ⟨(w, wt), hw, rfl⟩⟩

theorem passIter_succ (g : AdjListGraph Int) (s k : Nat) :
    passIter g s (k + 1) =
      (g.frontierEdges (passIter g s k).changed).foldl bfRelax
        ⟨(passIter g s k).costs, (passIter g s k).preds, []⟩ := rfl

theorem passIter_mono_succ (g : AdjListGraph Int) (s k : Nat) (x : Nat) :
    oc ((passIter g s (k + 1)).costs x) ≤ oc ((passIter g s k).costs x) := by
  rw [passIter_succ]
  exact bfFold_mono _ _ x

theorem passIter_mono (g : AdjListGraph Int) (s : Nat) {j k : Nat} (h : j ≤ k)
    (x : Nat) : oc ((passIter g s k).costs x) ≤ oc ((passIter g s j).costs x) := by
  induction k with
  | zero =>
      have : j = 0 := Nat.le_zero.mp h
      subst this; exact le_refl _
  | succ k ih =>
      rcases Nat.lt_or_ge j (k + 1) with hj | hj
      · exact le_trans (passIter_mono_succ g s k x) (ih (Nat.lt_succ_iff.mp hj))
      · have : j = k + 1 := le_antisymm h hj
        subst this; exact le_refl _

theorem passIter_sound (g : AdjListGraph Int) (s : Nat) :
    ∀ (k : Nat) (y : Nat) (c : Int), (passIter g s k).costs y = some c →
      ∃ steps, g.WalkL s y steps ∧ wcost steps = c := by
  intro k
  induction k with
  | zero =>
      intro y c hy
      simp only [passIter] at hy
      by_cases hys : y = s
      · subst hys
        rw [Function.update_same] at hy
        cases hy
        exact ⟨[], .refl, rfl⟩
      · rw [Function.update_noteq hys] at hy
        cases hy
  | succ k ih =>
      intro y c
      rw [passIter_succ]
      exact bfFold_sound (g.frontierEdges (passIter g s k).changed)
        ⟨(passIter g s k).costs, (passIter g s k).preds, []⟩
        (frontierEdges_legal g _) ih y c

theorem passIter_changed_of_ne (g : AdjListGraph Int) (s k : Nat) (x : Nat)
    (h : (passIter g s (k + 1)).costs x ≠ (passIter g s k).costs x) :
    x ∈ (passIter g s (k + 1)).changed := by
  rw [passIter_succ] at h ⊢
  exact bfFold_changed_of_ne _ _ x h

theorem passIter_relax (g : AdjListGraph Int) (s k : Nat) {v w : Nat} {wt : Int}
    (hv : v ∈ (passIter g s k).changed) (hw : (w, wt) ∈ g.adjOf v) :
    oc ((passIter g s (k + 1)).costs w) ≤ oc ((passIter g s k).costs v) + wt := by
  rw [passIter_succ]
  exact bfFold_bound _ _ v w wt (frontierEdges_mem g hv hw)

theorem passIter_progress (g : AdjListGraph Int) (s k : Nat)
    (h : (passIter g s (k + 1)).changed ≠ []) :
    ∃ x, oc ((passIter g s (k + 1)).costs x) < oc ((passIter g s k).costs x) := by
  rw [passIter_succ] at h ⊢
  rcases bfFold_progress _ ⟨(passIter g s k).costs, (passIter g s k).preds, []⟩ with heq | hx
  · rw [heq] at h; exact absurd rfl h
  · exact hx

/-- Edge propagation through first attainment: if `v`'s cost has come
down to `x` by pass `k`, then by pass `k + 1` the cost of each
neighbour `w` is at most `x + wt` — even though `(v, w)` is only
examined in the pass right after `v` last changed. -/
theorem passIter_key_edge (g : AdjListGraph Int) (s : Nat) {v w : Nat} {wt : Int}
    (hw : (w, wt) ∈ g.adjOf v) :
    ∀ (k : Nat) (x : Int), oc ((passIter g s k).costs v) ≤ (x : WithTop Int) →
      oc ((passIter g s (k + 1)).costs w) ≤ (x : WithTop Int) + wt := by
  intro k x hk
  have hne : (setOf fun j => oc ((passIter g s j).costs v) ≤ (x : WithTop Int)).Nonempty :=
    ⟨k, hk⟩
  have hmem : oc ((passIter g s
      (sInf (setOf fun j => oc ((passIter g s j).costs v) ≤ (x : WithTop Int)))).costs v) ≤
      (x : WithTop Int) := Nat.sInf_mem hne
  have hle : sInf (setOf fun j => oc ((passIter g s j).costs v) ≤ (x : WithTop Int)) ≤ k :=
    Nat.sInf_le hk
  have hvchanged : v ∈ (passIter g s
      (sInf (setOf fun j => oc ((passIter g s j).costs v) ≤ (x : WithTop Int)))).changed := by
    cases hz : sInf (setOf fun j => oc ((passIter g s j).costs v) ≤ (x : WithTop Int)) with
    | zero =>
        have hmem0 : oc ((passIter g s 0).costs v) ≤ (x : WithTop Int) := by
          rw [← hz]; exact hmem
        by_cases hvs : v = s
        · subst hvs; simp [passIter]
        · exfalso
          have hnone : (passIter g s 0).costs v = none := by
            simp [passIter, Function.update_noteq hvs]
          rw [hnone] at hmem0
          simp [oc, top_le_iff] at hmem0
    | succ j =>
        have hjnot : j ∉ (setOf fun j => oc ((passIter g s j).costs v) ≤ (x : WithTop Int)) :=
          Nat.not_mem_of_lt_sInf (by omega)
        have hmemj1 : oc ((passIter g s (j + 1)).costs v) ≤ (x : WithTop Int) := by
          rw [← hz]; exact hmem
        have hdiff : (passIter g s (j + 1)).costs v ≠ (passIter g s j).costs v := by
          intro he
          apply hjnot
          show oc ((passIter g s j).costs v) ≤ (x : WithTop Int)
          rw [← he]; exact hmemj1
        exact passIter_changed_of_ne g s j v hdiff
  have hstep := passIter_relax g s _ hvchanged hw
  calc oc ((passIter g s (k + 1)).costs w)
      ≤ oc ((passIter g s
          (sInf (setOf fun j => oc ((passIter g s j).costs v) ≤ (x : WithTop Int)) + 1)).costs w) :=
        passIter_mono g s (by omega) w
    _ ≤ oc ((passIter g s
          (sInf (setOf fun j => oc ((passIter g s j).costs v) ≤ (x : WithTop Int)))).costs v) + wt :=
        hstep
    _ ≤ (x : WithTop Int) + wt := add_le_add_right hmem _

/-- After `k` passes the cost map is below the weight of every walk of
at most `k` edges. -/
theorem passIter_upper (g : AdjListGraph Int) (s : Nat) {y : Nat}
    {steps : List (Nat × Int)} (hwalk : g.WalkL s y steps) :
    ∀ k : Nat, steps.length ≤ k →
      oc ((passIter g s k).costs y) ≤ (wcost steps : WithTop Int) := by
  induction hwalk with
  | refl =>
      intro k _
      calc oc ((passIter g s k).costs s) ≤ oc ((passIter g s 0).costs s) :=
            passIter_mono g s (Nat.zero_le k) s
        _ ≤ (wcost [] : WithTop Int) := by
            simp [passIter, oc, wcost]
  | tail hsteps hmem ih =>
      rename_i v w wt steps
      intro k hk
      rw [List.length_append, List.length_cons, List.length_nil] at hk
      cases k with
      | zero => omega
      | succ k =>
          have hv := ih k (by omega)
          have := passIter_key_edge g s hmem k (wcost steps) hv
          calc oc ((passIter g s (k + 1)).costs w)
              ≤ (wcost steps : WithTop Int) + wt := this
            _ = (wcost (steps ++ [(w, wt)]) : WithTop Int) := by
                simp [wcost, ← WithTop.coe_add]

/-! ### Walk combinatorics -/

theorem wcost_append (s1 s2 : List (Nat × Int)) :
    wcost (s1 ++ s2) = wcost s1 + wcost s2 := by
  simp [wcost]

theorem walkL_append {g : AdjListGraph Int} {a b c : Nat}
    {s1 s2 : List (Nat × Int)} (h1 : g.WalkL a b s1) (h2 : g.WalkL b c s2) :
    g.WalkL a c (s1 ++ s2) := by
  induction h2 with
  | refl => simpa using h1
  | tail hst harc ih =>
      have h := WalkL.tail ih harc
      simpa [List.append_assoc] using h

theorem walkL_end {g : AdjListGraph Int} {a w : Nat} {steps : List (Nat × Int)}
    (h : g.WalkL a w steps) : w = walkEnd a steps := by
  induction h with
  | refl => rfl
  | tail hst harc ih =>
      rename_i v w' wt st
      show w' = walkEnd a (st ++ [(w', wt)])
      unfold AdjListGraph.walkEnd
      rw [List.map_append]
      simp

theorem walkL_append_inv {g : AdjListGraph Int} {a w : Nat}
    {t : List (Nat × Int)} (h : g.WalkL a w t) :
    ∀ s1 s2, t = s1 ++ s2 → ∃ b, g.WalkL a b s1 ∧ g.WalkL b w s2 := by
  induction h with
  | refl =>
      intro s1 s2 he
      obtain ⟨rfl, rfl⟩ := List.append_eq_nil.mp he.symm
      exact ⟨a, .refl, .refl⟩
  | tail hst harc ih =>
      rename_i v w' wt st
      intro s1 s2 he
      rcases List.eq_nil_or_concat s2 with rfl | ⟨s2', last, rfl⟩
      · rw [List.append_nil] at he
        exact ⟨w', by rw [← he]; exact .tail hst harc, .refl⟩
      · rw [List.concat_eq_append] at he ⊢
        rw [← List.append_assoc] at he
        obtain ⟨h1, h2⟩ := List.append_inj' he.symm (by simp)
        have hlast : last = (w', wt) := by simpa using h2
        obtain ⟨b, hb1, hb2⟩ := ih s1 s2' h1.symm
        refine ⟨b, hb1, ?_⟩
        rw [hlast]
        exact .tail hb2 harc

theorem wf_adj_source {g : AdjListGraph E} (hwf : g.WF) {v w : Nat} {e : E}
    (h : (w, e) ∈ g.adjOf v) : v ∈ g.vertices := by
  unfold AdjListGraph.adjOf at h
  cases hl : lookupAssoc g.adjacency v with
  | none => rw [hl] at h; simp at h
  | some l => exact hwf.keys _ (lookupAssoc_eq_some_mem hl)

theorem walk_start_mem {g : AdjListGraph Int} (hwf : g.WF) {s y : Nat}
    {steps : List (Nat × Int)} (h : g.WalkL s y steps) :
    steps = [] ∨ s ∈ g.vertices := by
  induction h with
  | refl => exact Or.inl rfl
  | tail hst harc ih =>
      rename_i v w wt st
      rcases ih with rfl | hs
      · right
        have hv : v = s := by
          have := walkL_end hst
          simpa [AdjListGraph.walkEnd] using this
        subst hv
        exact wf_adj_source hwf harc
      · exact Or.inr hs

theorem walk_targets_mem {g : AdjListGraph Int} (hwf : g.WF) {s y : Nat}
    {steps : List (Nat × Int)} (h : g.WalkL s y steps) :
    ∀ p ∈ steps, p.1 ∈ g.vertices := by
  induction h with
  | refl => intro p hp; simp at hp
  | tail hst harc ih =>
      rename_i v w wt st
      intro p hp
      rcases List.mem_append.mp hp with hp | hp
      · exact ih p hp
      · have hpw : p = (w, wt) := by simpa using hp
        subst hpw
        exact wf_adj_target hwf (List.mem_map.mpr ⟨(w, wt), harc, rfl⟩)

/-- A walk whose vertex sequence repeats no vertex has fewer steps than
the graph has vertices. -/
theorem walk_nodup_length {g : AdjListGraph Int} (hwf : g.WF) {s y : Nat}
    {steps : List (Nat × Int)} (h : g.WalkL s y steps)
    (hnd : (s :: steps.map Prod.fst).Nodup) (hn : 1 ≤ g.vertices.length) :
    steps.length < g.vertices.length := by
  rcases eq_or_ne steps [] with rfl | hne
  · simpa using hn
  · have hs : s ∈ g.vertices := by
      rcases walk_start_mem hwf h with h0 | h0
      · exact absurd h0 hne
      · exact h0
    have htg := walk_targets_mem hwf h
    have hsub : ∀ z ∈ s :: steps.map Prod.fst, z ∈ g.vertices := by
      intro z hz
      rcases List.mem_cons.mp hz with rfl | hz
      · exact hs
      · obtain ⟨p, hp, rfl⟩ := List.mem_map.mp hz
        exact htg p hp
    have h2 : (s :: steps.map Prod.fst).toFinset.card =
        (s :: steps.map Prod.fst).length := List.toFinset_card_of_nodup hnd
    have h3 : (s :: steps.map Prod.fst).toFinset ⊆ g.vertices.toFinset := by
      intro z hz
      exact List.mem_toFinset.mpr (hsub z (List.mem_toFinset.mp hz))
    have h4 := Finset.card_le_card h3
    have h5 := g.vertices.toFinset_card_le
    rw [List.length_cons, List.length_map] at h2
    omega

/-- Any non-nodup list splits around a repeated element. -/
theorem not_nodup_split {l : List Nat} (h : ¬ l.Nodup) :
    ∃ x l1 l2 l3, l = l1 ++ x :: (l2 ++ x :: l3) := by
  induction l with
  | nil => simp at h
  | cons a t ih =>
      by_cases ha : a ∈ t
      · obtain ⟨t1, t2, rfl⟩ := List.append_of_mem ha
        exact ⟨a, [], t1, t2, by simp⟩
      · have ht : ¬ t.Nodup := by
          intro hn
          exact h (List.nodup_cons.mpr ⟨ha, hn⟩)
        obtain ⟨x, l1, l2, l3, rfl⟩ := ih ht
        exact ⟨x, a :: l1, l2, l3, by simp⟩

/-- Cycle removal: when no negative cycle is reachable from `s`, every
walk from `s` can be replaced by one of no greater weight whose vertex
sequence repeats no vertex. -/
theorem walk_shorten {g : AdjListGraph Int} {s : Nat}
    (hnc : ¬ ReachNegCycle g s) :
    ∀ (steps : List (Nat × Int)) (y : Nat), g.WalkL s y steps →
      ∃ t, g.WalkL s y t ∧ wcost t ≤ wcost steps ∧
        (s :: t.map Prod.fst).Nodup := by
  have H : ∀ (n : Nat) (steps : List (Nat × Int)), steps.length ≤ n →
      ∀ y, g.WalkL s y steps →
      ∃ t, g.WalkL s y t ∧ wcost t ≤ wcost steps ∧
        (s :: t.map Prod.fst).Nodup := by
    intro n
    induction n with
    | zero =>
        intro steps hlen y hwalk
        have hnil : steps = [] := List.length_eq_zero.mp (Nat.le_zero.mp hlen)
        subst hnil
        exact ⟨[], hwalk, le_refl _, by simp⟩
    | succ n ih =>
        intro steps hlen y hwalk
        by_cases hnd : (s :: steps.map Prod.fst).Nodup
        · exact ⟨steps, hwalk, le_refl _, hnd⟩
        by_cases hs : s ∈ steps.map Prod.fst
        · obtain ⟨t1, t2, hsplit⟩ := List.append_of_mem hs
          have hlens := congrArg List.length hsplit
          rw [List.length_map] at hlens
          simp [List.length_append] at hlens
          have hw2 : g.WalkL s y
              (steps.take (t1.length + 1) ++ steps.drop (t1.length + 1)) := by
            rw [List.take_append_drop]; exact hwalk
          obtain ⟨b, hB, hC⟩ := walkL_append_inv hw2 _ _ rfl
          have hmapB : (steps.take (t1.length + 1)).map Prod.fst = t1 ++ [s] := by
            rw [List.map_take, hsplit,
              show t1 ++ s :: t2 = (t1 ++ [s]) ++ t2 by simp,
              List.take_left' (by simp)]
          have hb : b = s := by
            have he := walkL_end hB
            simp only [AdjListGraph.walkEnd] at he
            rw [hmapB] at he
            simpa using he
          rw [hb] at hB hC
          have hBne : steps.take (t1.length + 1) ≠ [] := by
            intro h0
            cases hst : steps with
            | nil => rw [hst] at hsplit; simp at hsplit
            | cons p ps => rw [hst] at h0; simp [List.take_succ_cons] at h0
          have hBneg : ¬ wcost (steps.take (t1.length + 1)) < 0 := by
            intro hneg
            exact hnc ⟨s, [], steps.take (t1.length + 1), .refl, hB, hBne, hneg⟩
          have hClen : (steps.drop (t1.length + 1)).length ≤ n := by
            rw [List.length_drop]
            omega
          obtain ⟨t, hwt, hct, hndt⟩ := ih (steps.drop (t1.length + 1)) hClen y hC
          refine ⟨t, hwt, ?_, hndt⟩
          have hcts : wcost steps =
              wcost (steps.take (t1.length + 1)) +
              wcost (steps.drop (t1.length + 1)) := by
            conv_lhs => rw [← List.take_append_drop (t1.length + 1) steps]
            rw [wcost_append]
          push_neg at hBneg
          linarith
        · have htnd : ¬ (steps.map Prod.fst).Nodup := by
            intro h0
            exact hnd (List.nodup_cons.mpr ⟨hs, h0⟩)
          obtain ⟨x, l1, l2, l3, hsplit⟩ := not_nodup_split htnd
          have hlens := congrArg List.length hsplit
          rw [List.length_map] at hlens
          simp [List.length_append] at hlens
          have hw2 : g.WalkL s y
              (steps.take (l1.length + 1) ++ steps.drop (l1.length + 1)) := by
            rw [List.take_append_drop]; exact hwalk
          obtain ⟨b1, hA, hrest⟩ := walkL_append_inv hw2 _ _ rfl
          have hw3 : g.WalkL b1 y
              ((steps.drop (l1.length + 1)).take (l2.length + 1) ++
               (steps.drop (l1.length + 1)).drop (l2.length + 1)) := by
            rw [List.take_append_drop]; exact hrest
          obtain ⟨b2, hB, hC⟩ := walkL_append_inv hw3 _ _ rfl
          have hmapA : (steps.take (l1.length + 1)).map Prod.fst = l1 ++ [x] := by
            rw [List.map_take, hsplit,
              show l1 ++ x :: (l2 ++ x :: l3) = (l1 ++ [x]) ++ (l2 ++ x :: l3) by simp,
              List.take_left' (by simp)]
          have hmaprest : (steps.drop (l1.length + 1)).map Prod.fst =
              l2 ++ x :: l3 := by
            rw [List.map_drop, hsplit,
              show l1 ++ x :: (l2 ++ x :: l3) = (l1 ++ [x]) ++ (l2 ++ x :: l3) by simp,
              List.drop_left' (by simp)]
          have hmapB : ((steps.drop (l1.length + 1)).take (l2.length + 1)).map
              Prod.fst = l2 ++ [x] := by
            rw [List.map_take, hmaprest,
              show l2 ++ x :: l3 = (l2 ++ [x]) ++ l3 by simp,
              List.take_left' (by simp)]
          have hb1 : b1 = x := by
            have he := walkL_end hA
            simp only [AdjListGraph.walkEnd] at he
            rw [hmapA] at he
            simpa using he
          rw [hb1] at hA hB
          have hb2 : b2 = x := by
            have he := walkL_end hB
            simp only [AdjListGraph.walkEnd] at he
            rw [hmapB] at he
            simpa using he
          rw [hb2] at hB hC
          have hBne : (steps.drop (l1.length + 1)).take (l2.length + 1) ≠ [] := by
            intro h0
            cases hdrop : steps.drop (l1.length + 1) with
            | nil => rw [hdrop] at hmaprest; simp at hmaprest
            | cons p ps => rw [hdrop] at h0; simp [List.take_succ_cons] at h0
          have hBneg : ¬ wcost ((steps.drop (l1.length + 1)).take (l2.length + 1)) < 0 := by
            intro hneg
            exact hnc ⟨x, steps.take (l1.length + 1),
              (steps.drop (l1.length + 1)).take (l2.length + 1), hA, hB, hBne, hneg⟩
          have hAC : g.WalkL s y
              (steps.take (l1.length + 1) ++
               (steps.drop (l1.length + 1)).drop (l2.length + 1)) :=
            walkL_append hA hC
          have hACfuel : (steps.take (l1.length + 1) ++
              (steps.drop (l1.length + 1)).drop (l2.length + 1)).length ≤ n := by
            rw [List.length_append, List.length_take, List.length_drop,
              List.length_drop]
            rw [inf_eq_min]
            omega
          obtain ⟨t, hwt, hct, hndt⟩ := ih _ hACfuel y hAC
          refine ⟨t, hwt, ?_, hndt⟩
          have hc1 : wcost steps =
              wcost (steps.take (l1.length + 1)) +
              wcost (steps.drop (l1.length + 1)) := by
            conv_lhs => rw [← List.take_append_drop (l1.length + 1) steps]
            rw [wcost_append]
          have hc2 : wcost (steps.drop (l1.length + 1)) =
              wcost ((steps.drop (l1.length + 1)).take (l2.length + 1)) +
              wcost ((steps.drop (l1.length + 1)).drop (l2.length + 1)) := by
            conv_lhs =>
              rw [← List.take_append_drop (l2.length + 1) (steps.drop (l1.length + 1))]
            rw [wcost_append]
          rw [wcost_append] at hct
          push_neg at hBneg
          linarith
  intro steps y hwalk
  exact H steps.length steps (le_refl _) y hwalk

/-! ### The two directions of the Bellman-Ford termination criterion -/

/-- A pass with an empty frontier is a no-op: the iteration is stuck
forever once some pass changes nothing. -/
theorem passIter_stable {g : AdjListGraph Int} {s p : Nat}
    (hch : (passIter g s p).changed = []) :
    ∀ j, (passIter g s (p + j)).costs = (passIter g s p).costs ∧
      (passIter g s (p + j)).changed = [] := by
  intro j
  induction j with
  | zero => exact ⟨rfl, hch⟩
  | succ j ih =>
      obtain ⟨hc, hch'⟩ := ih
      have hstep : passIter g s (p + j + 1) =
          ⟨(passIter g s (p + j)).costs, (passIter g s (p + j)).preds, []⟩ := by
        rw [passIter_succ, hch']
        rfl
      rw [show p + (j + 1) = p + j + 1 from rfl, hstep]
      exact ⟨hc, rfl⟩

/-- Pumping a reachable cycle: a walk to `u` followed by `m` turns of a
cycle at `u`. -/
theorem walk_pump {g : AdjListGraph Int} {s u : Nat} {pre cyc : List (Nat × Int)}
    (hpre : g.WalkL s u pre) (hcyc : g.WalkL u u cyc) :
    ∀ m : Nat, ∃ st, g.WalkL s u st ∧ wcost st = wcost pre + (m : Int) * wcost cyc := by
  intro m
  induction m with
  | zero => exact ⟨pre, hpre, by simp⟩
  | succ m ih =>
      obtain ⟨st, hw, hc⟩ := ih
      refine ⟨st ++ cyc, walkL_append hw hcyc, ?_⟩
      rw [wcost_append, hc]
      push_cast
      ring

/-- With a reachable negative cycle, no relaxation pass ever comes up
empty: the cost of the cycle's entry vertex can always still drop. -/
theorem negcycle_always_changes {g : AdjListGraph Int} {s : Nat}
    (hnc : ReachNegCycle g s) : ∀ p, (passIter g s p).changed ≠ [] := by
  intro p hch
  have hstab := passIter_stable hch
  have hbound : ∀ (y : Nat) (st : List (Nat × Int)), g.WalkL s y st →
      oc ((passIter g s p).costs y) ≤ (wcost st : WithTop Int) := by
    intro y st hw
    have h1 := passIter_upper g s hw (p + st.length) (by omega)
    rw [(hstab st.length).1] at h1
    exact h1
  obtain ⟨u, pre, cyc, hpre, hcyc, hcne, hcneg⟩ := hnc
  cases hcu : (passIter g s p).costs u with
  | none =>
      have hb := hbound u pre hpre
      rw [hcu] at hb
      simp [oc, top_le_iff] at hb
  | some c =>
      obtain ⟨st, hw, hc⟩ := walk_pump hpre hcyc ((wcost pre - c).toNat + 1)
      have hb := hbound u st hw
      rw [hcu, hc] at hb
      simp only [oc] at hb
      have hb' : c ≤ wcost pre +
          (((wcost pre - c).toNat + 1 : Nat) : Int) * wcost cyc := by
        exact_mod_cast hb
      have h1 : wcost cyc ≤ -1 := by omega
      have h2 : wcost pre - c ≤ (((wcost pre - c).toNat : Nat) : Int) :=
        Int.self_le_toNat _
      have h3 : (0 : Int) ≤ (((wcost pre - c).toNat + 1 : Nat) : Int) := by positivity
      have h4 : (((wcost pre - c).toNat + 1 : Nat) : Int) * wcost cyc ≤
          (((wcost pre - c).toNat + 1 : Nat) : Int) * (-1) :=
        mul_le_mul_of_nonneg_left h1 h3
      have h5 : (((wcost pre - c).toNat + 1 : Nat) : Int) =
          (((wcost pre - c).toNat : Nat) : Int) + 1 := by push_cast; ring
      rw [h5] at hb' h4
      linarith

/-- With no reachable negative cycle, the `(m + 1)`-st pass of a graph
with `m + 1` vertices changes nothing. -/
theorem no_negcycle_pass_empty {g : AdjListGraph Int} (hwf : g.WF) {s : Nat}
    (hnc : ¬ ReachNegCycle g s) (m : Nat) (hm : g.vertices.length = m + 1) :
    (passIter g s (m + 1)).changed = [] := by
  by_contra hch
  obtain ⟨x, hx⟩ := passIter_progress g s m hch
  cases hc : (passIter g s (m + 1)).costs x with
  | none =>
      rw [hc] at hx
      simp [oc] at hx
  | some c =>
      obtain ⟨steps, hwalk, hcost⟩ := passIter_sound g s (m + 1) x c hc
      obtain ⟨t, hwalkt, hle, hnd⟩ := walk_shorten hnc steps x hwalk
      have hlen : t.length < g.vertices.length :=
        walk_nodup_length hwf hwalkt hnd (by omega)
      have hup := passIter_upper g s hwalkt m (by omega)
      have hcontra : oc ((passIter g s m).costs x) ≤
          oc ((passIter g s (m + 1)).costs x) := by
        rw [hc]
        calc oc ((passIter g s m).costs x)
            ≤ (wcost t : WithTop Int) := hup
          _ ≤ (wcost steps : WithTop Int) := WithTop.coe_le_coe.mpr hle
          _ = oc (some c) := by rw [hcost]; rfl
      exact absurd hx (not_lt.mpr hcontra)

/-! ### Relating the fuelled loop to the pass iteration -/

theorem bfLoop_succ_nil (g : AdjListGraph Int) (k : Nat)
    (costs : Nat → Option Int) (preds : Nat → Option Nat) (fr : List Nat)
    (h : (g.bfPass fr costs preds).changed = []) :
    g.bfLoop (k + 1) costs preds fr =
      BFResult.SPT ⟨0, (g.bfPass fr costs preds).costs,
        (g.bfPass fr costs preds).preds⟩ := by
  simp only [bfLoop, h]

theorem bfLoop_succ_cons_last (g : AdjListGraph Int)
    (costs : Nat → Option Int) (preds : Nat → Option Nat) (fr : List Nat)
    (c0 : Nat) (tl : List Nat)
    (h : (g.bfPass fr costs preds).changed = c0 :: tl) :
    g.bfLoop (0 + 1) costs preds fr =
      BFResult.NegativeCycle
        (constructNegativeCycle (g.bfPass fr costs preds).preds
          (g.vertices.length + 1) c0) := by
  simp only [bfLoop, h]
  simp

theorem bfLoop_succ_cons_step (g : AdjListGraph Int) (k : Nat)
    (costs : Nat → Option Int) (preds : Nat → Option Nat) (fr : List Nat)
    (c0 : Nat) (tl : List Nat)
    (h : (g.bfPass fr costs preds).changed = c0 :: tl) :
    g.bfLoop (k + 1 + 1) costs preds fr =
      g.bfLoop (k + 1) (g.bfPass fr costs preds).costs
        (g.bfPass fr costs preds).preds (g.bfPass fr costs preds).changed := by
  simp only [bfLoop, h]
  simp

/-- If the loop reports a negative cycle, the last executed pass still
changed something. -/
theorem bfLoop_nc_last (g : AdjListGraph Int) (s : Nat) :
    ∀ (k p : Nat) (c : List Nat),
      g.bfLoop k (passIter g s p).costs (passIter g s p).preds
          (passIter g s p).changed = BFResult.NegativeCycle c →
      (passIter g s (p + k)).changed ≠ [] := by
  intro k
  induction k with
  | zero =>
      intro p c hc
      exact absurd hc (by simp [bfLoop])
  | succ k ih =>
      intro p c hc
      have hpass : g.bfPass (passIter g s p).changed (passIter g s p).costs
          (passIter g s p).preds = passIter g s (p + 1) := rfl
      cases hch : (passIter g s (p + 1)).changed with
      | nil =>
          have hv := bfLoop_succ_nil g k (passIter g s p).costs
            (passIter g s p).preds (passIter g s p).changed
            (by rw [hpass]; exact hch)
          rw [hv] at hc
          exact absurd hc (by simp)
      | cons c0 tl =>
          cases k with
          | zero =>
              show (passIter g s (p + 1)).changed ≠ []
              rw [hch]
              simp
          | succ k' =>
              have hstep := bfLoop_succ_cons_step g k' (passIter g s p).costs
                (passIter g s p).preds (passIter g s p).changed c0 tl
                (by rw [hpass]; exact hch)
              rw [hstep, hpass] at hc
              have h2 := ih (p + 1) c hc
              rw [show p + 1 + (k' + 1) = p + (k' + 1 + 1) by omega] at h2
              exact h2

/-- If every pass up to the fuel changes something, the loop reports a
negative cycle. -/
theorem bfLoop_nc_intro (g : AdjListGraph Int) (s : Nat) :
    ∀ (k p : Nat), 1 ≤ k →
      (∀ j, 1 ≤ j → j ≤ k → (passIter g s (p + j)).changed ≠ []) →
      ∃ c, g.bfLoop k (passIter g s p).costs (passIter g s p).preds
          (passIter g s p).changed = BFResult.NegativeCycle c := by
  intro k
  induction k with
  | zero => intro p h1 _; omega
  | succ k ih =>
      intro p _ hall
      have hpass : g.bfPass (passIter g s p).changed (passIter g s p).costs
          (passIter g s p).preds = passIter g s (p + 1) := rfl
      have hch1 : (passIter g s (p + 1)).changed ≠ [] := hall 1 (by omega) (by omega)
      cases hch : (passIter g s (p + 1)).changed with
      | nil => exact absurd hch hch1
      | cons c0 tl =>
          cases k with
          | zero =>
              refine ⟨constructNegativeCycle (passIter g s (p + 1)).preds
                  (g.vertices.length + 1) c0, ?_⟩
              have hv := bfLoop_succ_cons_last g (passIter g s p).costs
                (passIter g s p).preds (passIter g s p).changed c0 tl
                (by rw [hpass]; exact hch)
              rw [hv, hpass]
          | succ k' =>
              have hstep := bfLoop_succ_cons_step g k' (passIter g s p).costs
                (passIter g s p).preds (passIter g s p).changed c0 tl
                (by rw [hpass]; exact hch)
              have hall' : ∀ j, 1 ≤ j → j ≤ k' + 1 →
                  (passIter g s (p + 1 + j)).changed ≠ [] := by
                intro j hj1 hj2
                have h := hall (j + 1) (by omega) (by omega)
                rw [show p + (j + 1) = p + 1 + j by omega] at h
                exact h
              obtain ⟨c, hc⟩ := ih (p + 1) (by omega) hall'
              exact ⟨c, by rw [hstep, hpass]; exact hc⟩

/-- `bellman_ford` reports a negative cycle exactly when its inner loop
does, at the initial state of the pass iteration. -/
theorem bellmanFord_nc_iff_loop (g : AdjListGraph Int) (s : Nat) :
    (∃ c, g.bellmanFord s = BFResult.NegativeCycle c) ↔
    (∃ c, g.bfLoop g.vertices.length (passIter g s 0).costs
        (passIter g s 0).preds (passIter g s 0).changed =
        BFResult.NegativeCycle c) := by
  have harg : g.bfLoop g.vertices.length (passIter g s 0).costs
      (passIter g s 0).preds (passIter g s 0).changed =
      g.bfLoop g.vertices.length (Function.update (fun _ => none) s (some 0))
        (fun _ => none) [s] := rfl
  rw [harg]
  unfold AdjListGraph.bellmanFord
  cases hl : g.bfLoop g.vertices.length
      (Function.update (fun _ => none) s (some 0)) (fun _ => none) [s] with
  | SPT r => simp
  | NegativeCycle c => simp

end AdjListGraph

/-! ## Claim theorems -/

/-- Writing a matrix cell in range makes it readable. -/
theorem cell_setCell_self {E : Type} (g : MatrixGraph E) {i j : Nat} (e : E)
    (hi : i < g.matrix.length) (hj : j < (g.matrix.getD i []).length) :
    (g.setCell i j e).cell i j = some e := by
  unfold MatrixGraph.setCell MatrixGraph.cell
  simp only
  have h1 : (g.matrix.set i ((g.matrix.getD i []).set j (some e))).getD i [] =
      (g.matrix.getD i []).set j (some e) := by
    rw [List.getD_eq_getElem?_getD, List.getElem?_set_self hi, Option.getD_some]
  rw [h1, List.getD_eq_getElem?_getD,
    List.getElem?_set_self (by simpa using hj), Option.getD_some]

/-- C9: on either backend, inserting a self-loop `(u, u)` into an
undirected graph that contains `u` (and stores no `(u, u)` arc yet —
an invariant of undirected construction) reports
`DuplicateEdge(u, u)` from the second symmetric half-insertion while
the first half-arc stays stored: the call errors yet modifies the
graph. -/
theorem push_edge_self_loop_not_atomic {E : Type}
    (gl : AdjListGraph E) (gm : MatrixGraph E) (u m : Nat) (el em : E)
    (hu : u ∈ gl.vertices)
    (hno : ∀ p ∈ gl.adjOf u, p.1 ≠ u)
    (hmlen : gm.matrix.length = gm.vertices.length)
    (hmrows : ∀ row ∈ gm.matrix, row.length = gm.vertices.length)
    (hm : m < gm.vertices.length)
    (hcell : gm.cell m m = none) :
    (gl.pushEdgeUndirected u u el).1 = some (.DuplicateEdge u u) ∧
    AdjListGraph.adjOf (gl.pushEdgeUndirected u u el).2 u = gl.adjOf u ++ [(u, el)] ∧
    (gm.pushEdgeUndirected m m em).1 = some (.DuplicateEdge m m) ∧
    MatrixGraph.cell (gm.pushEdgeUndirected m m em).2 m m = some em := by
  have hcontains : gl.vertices.contains u = true := nat_contains_iff.mpr hu
  have hany : (gl.adjOf u).any (fun p => p.1 = u) = false := by
    simp only [List.any_eq_false, decide_eq_true_eq]
    exact fun p hp => hno p hp
  have hfirst : gl.pushEdgeInternal u u el =
      (none, { gl with adjacency := updateAssoc gl.adjacency u (gl.adjOf u ++ [(u, el)]) }) := by
    simp [AdjListGraph.pushEdgeInternal, hu, hany]
  have hadj₁ : AdjListGraph.adjOf
      { gl with adjacency := updateAssoc gl.adjacency u (gl.adjOf u ++ [(u, el)]) } u =
      gl.adjOf u ++ [(u, el)] := by
    simp [AdjListGraph.adjOf, lookupAssoc_update_self]
  have hlist : (gl.pushEdgeUndirected u u el) =
      (some (.DuplicateEdge u u),
       { gl with adjacency := updateAssoc gl.adjacency u (gl.adjOf u ++ [(u, el)]) }) := by
    simp only [AdjListGraph.pushEdgeUndirected, hfirst]
    simp [AdjListGraph.pushEdgeInternal, hu, hadj₁]
  -- matrix part
  have hrowlen : m < (gm.matrix.getD m []).length := by
    have hmm : m < gm.matrix.length := by omega
    rw [List.getD_eq_getElem?_getD, List.getElem?_eq_getElem hmm]
    simp only [Option.getD_some]
    rw [hmrows _ (gm.matrix.getElem_mem hmm)]
    exact hm
  have hmfirst : gm.pushEdgeInternal m m em = (none, gm.setCell m m em) := by
    simp [MatrixGraph.pushEdgeInternal, hm, hcell]
  have hcell₂ : (gm.setCell m m em).cell m m = some em :=
    cell_setCell_self gm em (by omega) hrowlen
  have hmat : gm.pushEdgeUndirected m m em =
      (some (.DuplicateEdge m m), gm.setCell m m em) := by
    have hverts : (gm.setCell m m em).vertices = gm.vertices := rfl
    simp only [MatrixGraph.pushEdgeUndirected, hmfirst]
    simp [MatrixGraph.pushEdgeInternal, hverts, hm, hcell₂]
  refine ⟨by rw [hlist], by rw [hlist]; exact hadj₁, by rw [hmat], by rw [hmat]; exact hcell₂⟩

theorem push_edge_self_loop_not_atomic_witness :
    ((⟨[0], []⟩ : AdjListGraph Unit).pushEdgeUndirected 0 0 ()).1 =
      some (.DuplicateEdge 0 0) ∧
    AdjListGraph.adjOf ((⟨[0], []⟩ : AdjListGraph Unit).pushEdgeUndirected 0 0 ()).2 0 =
      AdjListGraph.adjOf (⟨[0], []⟩ : AdjListGraph Unit) 0 ++ [(0, ())] ∧
    ((⟨[0], [[none]]⟩ : MatrixGraph Unit).pushEdgeUndirected 0 0 ()).1 =
      some (.DuplicateEdge 0 0) ∧
    MatrixGraph.cell ((⟨[0], [[none]]⟩ : MatrixGraph Unit).pushEdgeUndirected 0 0 ()).2 0 0 =
      some () :=
  push_edge_self_loop_not_atomic (⟨[0], []⟩ : AdjListGraph Unit)
    (⟨[0], [[none]]⟩ : MatrixGraph Unit) 0 0 () ()
    (by decide) (by decide) (by decide) (by decide) (by decide) (by decide)

/-- C10: when the start id is absent from the graph, `dijkstra` and
`bellman_ford` do not report `VertexNotFound` (their signatures cannot
even return an error): each produces a normal result whose cost map is
exactly `start ↦ 0` and whose predecessor map is empty — unlike
`bfs_iter`, which rejects the same start with `VertexNotFound`. -/
theorem dijkstra_bellman_ford_missing_start (g : AdjListGraph Int)
    (s : Nat) (goal : Option Nat)
    (hkeys : ∀ p ∈ g.adjacency, p.1 ∈ g.vertices)
    (hs : s ∉ g.vertices) :
    (g.dijkstra s goal).costs = Function.update (fun _ => none) s (some 0) ∧
    (g.dijkstra s goal).predecessors = (fun _ => none) ∧
    g.bellmanFord s =
      .SPT ⟨s, Function.update (fun _ => none) s (some 0), fun _ => none⟩ ∧
    g.bfsIter s = .error (.VertexNotFound s) := by
  have hadj : g.adjOf s = [] := by
    unfold AdjListGraph.adjOf
    cases hl : lookupAssoc g.adjacency s with
    | none => rfl
    | some l => exact absurd (hkeys _ (lookupAssoc_eq_some_mem hl)) (by simpa using hs)
  have hcontains : g.vertices.contains s = false := by
    rw [← Bool.not_eq_true, nat_contains_iff]
    exact hs
  have hdij : ∀ (fuel : Nat) (c : Nat → Option Int) (p : Nat → Option Nat)
      (vis : List Nat),
      AdjListGraph.dijLoop g goal fuel ⟨c, p, vis, []⟩ = ⟨c, p, vis, []⟩ := by
    intro fuel c p vis
    cases fuel with
    | zero => rfl
    | succ n => simp [AdjListGraph.dijLoop, AdjListGraph.popMin]
  refine ⟨?_, ?_, ?_, ?_⟩
  · unfold AdjListGraph.dijkstra
    simp only [AdjListGraph.dijLoop, AdjListGraph.popMin]
    by_cases hgoal : goal = some s
    · simp [hgoal]
    · simp only [if_neg (by simpa using hgoal), List.contains_nil, Bool.false_eq_true,
        if_false, if_neg (by simp : ¬ (false = true))]
      simp [AdjListGraph.dijExpand, hadj, hdij]
  · unfold AdjListGraph.dijkstra
    simp only [AdjListGraph.dijLoop, AdjListGraph.popMin]
    by_cases hgoal : goal = some s
    · simp [hgoal]
    · simp only [if_neg (by simpa using hgoal), List.contains_nil, Bool.false_eq_true,
        if_false, if_neg (by simp : ¬ (false = true))]
      simp [AdjListGraph.dijExpand, hadj, hdij]
  · unfold AdjListGraph.bellmanFord
    cases hn : g.vertices.length with
    | zero => rfl
    | succ k =>
        have hpass : g.bfPass [s] (Function.update (fun _ => none) s (some 0))
            (fun _ => none) = ⟨Function.update (fun _ => none) s (some 0), fun _ => none, []⟩ := by
          unfold AdjListGraph.bfPass AdjListGraph.frontierEdges
          simp [hadj]
        simp [AdjListGraph.bfLoop, hpass]
  · simp [AdjListGraph.bfsIter, hs]

theorem dijkstra_bellman_ford_missing_start_witness :
    (AdjListGraph.dijkstra ⟨[0], [(0, [(0, 1)])]⟩ 7 none).costs =
      Function.update (fun _ => none) 7 (some 0) ∧
    (AdjListGraph.dijkstra ⟨[0], [(0, [(0, 1)])]⟩ 7 none).predecessors = (fun _ => none) ∧
    AdjListGraph.bellmanFord ⟨[0], [(0, [(0, 1)])]⟩ 7 =
      .SPT ⟨7, Function.update (fun _ => none) 7 (some 0), fun _ => none⟩ ∧
    AdjListGraph.bfsIter ⟨[0], [(0, [(0, 1)])]⟩ 7 = .error (.VertexNotFound 7) :=
  dijkstra_bellman_ford_missing_start ⟨[0], [(0, [(0, 1)])]⟩ 7 none
    (by decide) (by decide)

/-- C6: for every well-formed directed adjacency-list graph and start
vertex, `bellman_ford(start)` returns the `NegativeCycle` variant if
and only if a negative-weight cycle is reachable from the start; since
`BellmanFordResult` has only the two variants, it otherwise returns an
`SPT` result. -/
theorem bellman_ford_negative_cycle_iff (g : AdjListGraph Int) (s : Nat)
    (hwf : g.WF) :
    (∃ cyc, g.bellmanFord s = BFResult.NegativeCycle cyc) ↔
      AdjListGraph.ReachNegCycle g s := by
  rw [AdjListGraph.bellmanFord_nc_iff_loop]
  constructor
  · rintro ⟨c, hc⟩
    by_contra hnc
    rcases Nat.eq_zero_or_pos g.vertices.length with hn | hn
    · rw [hn] at hc
      simp [AdjListGraph.bfLoop] at hc
    · have hlast := AdjListGraph.bfLoop_nc_last g s g.vertices.length 0 c hc
      rw [Nat.zero_add] at hlast
      obtain ⟨m, hm⟩ : ∃ m, g.vertices.length = m + 1 :=
        ⟨g.vertices.length - 1, by omega⟩
      rw [hm] at hlast
      exact hlast (AdjListGraph.no_negcycle_pass_empty hwf hnc m hm)
  · intro hnc
    have hall := AdjListGraph.negcycle_always_changes hnc
    have hn1 : 1 ≤ g.vertices.length := by
      obtain ⟨u, pre, cyc, hpre, hcyc, hcne, _⟩ := hnc
      obtain ⟨q, hq⟩ := List.exists_mem_of_ne_nil cyc hcne
      have hmem := AdjListGraph.walk_targets_mem hwf hcyc q hq
      exact List.length_pos.mpr (List.ne_nil_of_mem hmem)
    exact AdjListGraph.bfLoop_nc_intro g s g.vertices.length 0 hn1
      (fun j _ _ => by rw [Nat.zero_add]; exact hall j)

/-- C6 witness: the concrete two-vertex graph with the negative cycle
`0 → 1 → 0` is well-formed and has a negative cycle reachable from 0,
so `bellman_ford(0)` on it reports `NegativeCycle`. -/
theorem bellman_ford_negative_cycle_iff_witness :
    exNegCycleG.WF ∧
      (∃ cyc, exNegCycleG.bellmanFord 0 = BFResult.NegativeCycle cyc) := by
  have hwf : exNegCycleG.WF := ⟨by decide, by decide, by decide⟩
  refine ⟨hwf, (bellman_ford_negative_cycle_iff exNegCycleG 0 hwf).mpr ?_⟩
  have h1 : exNegCycleG.WalkL 0 1 ([] ++ [(1, -1)]) :=
    AdjListGraph.WalkL.tail .refl (by decide)
  have h2 : exNegCycleG.WalkL 0 0 (([] ++ [(1, -1)]) ++ [(0, -1)]) :=
    AdjListGraph.WalkL.tail h1 (by decide)
  exact ⟨0, [], [(1, -1), (0, -1)], .refl, h2, by decide, by decide⟩

/-- C5: for every well-formed graph and start vertex present in it,
the BFS iterator succeeds and yields exactly the set of vertices
reachable from the start, each exactly once, in non-decreasing breadth
distance from the start.  (Within one distance layer the yield order
is the deterministic discovery order: parents in pop order, and for
one parent the neighbour insertion order — the witness checks the
spec's concrete tie-break scenario.) -/
theorem bfs_visits_reachable_once_in_breadth_order {E : Type}
    (g : AdjListGraph E) (s : Nat) (hwf : g.WF) (hs : s ∈ g.vertices) :
    ∃ l, g.bfsIter s = .ok l ∧ l.Nodup ∧
      (∀ x, x ∈ l ↔ g.Reach s x) ∧
      l.Pairwise (fun a b => g.bdist s a ≤ g.bdist s b) := by
  have hrun : g.bfsIter s = .ok (g.bfsAux g.vertices.length [s] [s]) := by
    simp [AdjListGraph.bfsIter, hs]
  have hcardV : g.vertices.toFinset.card = g.vertices.length :=
    List.toFinset_card_of_nodup hwf.nodupVerts
  have hssub : ([s] : List Nat).toFinset ⊆ g.vertices.toFinset := by
    intro x hx
    simp only [List.toFinset_cons, List.toFinset_nil, insert_emptyc_eq,
      Finset.mem_singleton] at hx
    rw [List.mem_toFinset]
    exact hx ▸ hs
  have hlen : 1 ≤ g.vertices.length := List.length_pos.mpr (by
    intro hnil; rw [hnil] at hs; exact absurd hs (List.not_mem_nil s))
  have hfuel : ([s] : List Nat).length +
      (g.vertices.toFinset \ ([s] : List Nat).toFinset).card ≤ g.vertices.length := by
    have h1 : (g.vertices.toFinset \ ([s] : List Nat).toFinset).card =
        g.vertices.toFinset.card - ([s] : List Nat).toFinset.card :=
      Finset.card_sdiff hssub
    have h2 : ([s] : List Nat).toFinset.card = 1 := by simp
    simp only [List.length_cons, List.length_nil]
    omega
  obtain ⟨c1, c2, c3⟩ := AdjListGraph.bfsAux_spec hwf s g.vertices.length [s] [s] []
    rfl (by simp) (fun x hx => by
      have hxs : x = s := by simpa using hx
      exact ⟨0, hxs ▸ .refl⟩)
    (by simp) (by simp)
    (fun a ha b hb => by
      have ha' : a = s := by simpa using ha
      have hb' : b = s := by simpa using hb
      subst ha'; subst hb'
      exact self_le_add_right _ _)
    (by simp)
    (fun x hx => by
      have hxs : x = s := by simpa using hx
      exact hxs ▸ hs)
    hfuel
  exact ⟨_, hrun, by simpa using c1, fun x => by simpa using c2 x, by simpa using c3⟩

theorem bfs_visits_reachable_once_in_breadth_order_witness :
    (∃ l, exBfsTree.bfsIter 0 = .ok l ∧ l.Nodup ∧
      (∀ x, x ∈ l ↔ exBfsTree.Reach 0 x) ∧
      l.Pairwise (fun a b => exBfsTree.bdist 0 a ≤ exBfsTree.bdist 0 b)) ∧
    exBfsTree.bfsIter 0 = .ok [0, 1, 2, 3, 4, 5] :=
  ⟨bfs_visits_reachable_once_in_breadth_order exBfsTree 0
    ⟨by decide, by decide, by decide⟩ (by decide), rfl⟩

/-- C8: `is_directed` on the adjacency-matrix backend returns `false`
for **both** direction tags; the `Directed` impl (adjacency_matrix.rs
line 441) contradicts the claim (and the trait documentation), which
require `true` for `Directed`. -/
theorem matrix_is_directed_false_for_both_tags :
    MatrixGraph.isDirected (⟨[0], [[none]]⟩ : MatrixGraph Unit) .Directed = false ∧
    MatrixGraph.isDirected (⟨[0], [[none]]⟩ : MatrixGraph Unit) .Undirected = false :=
  ⟨rfl, rfl⟩

/-- C7: on the empty input graph, `mst_prim` (no start requested)
returns the empty output graph, but `mst_kruskal` evaluates
`vertex_count() - 1 = 0usize - 1`, an arithmetic overflow (a panic
under the overflow checks of the crate's own test profile) instead of
returning an empty graph. -/
theorem mst_empty_prim_ok_kruskal_underflows :
    AdjListGraph.mstPrim (⟨[], []⟩ : AdjListGraph Int) none = .ok ⟨[], []⟩ ∧
    AdjListGraph.mstKruskal (⟨[], []⟩ : AdjListGraph Int) = .panicked :=
  ⟨rfl, rfl⟩

/-- C4: `union` on two already-merged elements returns the **error**
`NotDisjunct(x, y, parent)` rather than a non-error "already merged"
value, and Kruskal's `map_err(..)?` consequently aborts with
`AlgorithmError` on the first cycle-closing edge (here the 4-vertex
graph `exKruskalG`, whose third-cheapest edge closes a cycle) instead
of skipping it. -/
theorem union_already_merged_is_error :
    ((((((UnionFind.makeSet ⟨[], []⟩ 1).2.makeSet 2).2.union 1 2).2.union 1 2).1) =
      .error (.NotDisjunct 1 2 2)) ∧
    AdjListGraph.mstKruskal exKruskalG = .errored .AlgorithmError :=
  ⟨rfl, rfl⟩

/-- C3 counterexample: a batch with a duplicate vertex id is accepted
by the adjacency-matrix `from_vertices_and_edges` — it returns `Ok`
with both copies stored, not a §7 error. -/
theorem from_batch_duplicate_vertex_accepted :
    MatrixGraph.fromVerticesAndEdges .Undirected [0, 0]
      ([] : List (Nat × Nat × Unit)) =
    .ok ⟨[0, 0], [[none, none], [none, none]]⟩ :=
  rfl

/-- C3 (amended): `from_vertices_and_edges` performs no invariant
validation.  On the adjacency-matrix backend every batch whose edge
endpoints lie in the dense range returns `Ok` (duplicate vertices and
duplicate edges silently accepted, later writes overwriting earlier
ones); an out-of-range endpoint is an index panic, not an error; and
the adjacency-list version is an unimplemented `todo!()` stub that
panics on every input. -/
theorem from_batch_validates_nothing {E : Type} (dir : Direction)
    (vs : List Nat) (es : List (Nat × Nat × E))
    (hne : ¬ vs.isEmpty)
    (hin : ∀ t ∈ es, t.1 < vs.length ∧ t.2.1 < vs.length) :
    (∃ g, MatrixGraph.fromVerticesAndEdges dir vs es = .ok g ∧ g.vertices = vs) ∧
    AdjListGraph.fromVerticesAndEdges dir vs es = .panicked := by
  refine ⟨?_, rfl⟩
  obtain ⟨g', hf, hv⟩ := foldBatch_some dir vs.length es
    ⟨vs, List.replicate vs.length (List.replicate vs.length none)⟩ hin
  exact ⟨g', by simp [MatrixGraph.fromVerticesAndEdges, hne, hf], hv⟩

theorem from_batch_validates_nothing_witness :
    (∃ g, MatrixGraph.fromVerticesAndEdges .Undirected [0, 0]
        [(0, 1, ())] = .ok g ∧ g.vertices = [0, 0]) ∧
    AdjListGraph.fromVerticesAndEdges .Undirected [0, 0] [(0, 1, ())] = .panicked :=
  from_batch_validates_nothing .Undirected [0, 0] [(0, 1, ())]
    (by decide) (by decide)

/-- C2: on the fully connected 5-vertex instance `exTspW`,
`tsp_brute_force` finds the optimum tour of cost 3736, while
`tsp_branch_and_bound` returns a tour of cost 3944: the pruning bound
overestimates (its two-cheapest scan skips weights between the two
slots and it ignores edges back to the start), so the optimal branch
is pruned. -/
theorem branch_and_bound_misses_optimum :
    Tsp.tspBruteForce 5 exTspW none = some [0, 2, 3, 1, 4, 0] ∧
    Tsp.tspBranchAndBound 5 exTspW none = some [0, 1, 4, 3, 2, 0] ∧
    Tsp.pathCost exTspW [0, 2, 3, 1, 4, 0] = 3736 ∧
    Tsp.pathCost exTspW [0, 1, 4, 3, 2, 0] = 3944 := by
  refine ⟨by decide, by decide, by decide, by decide⟩

/-- C1: on `exFlowG` (antiparallel arcs `0 ↔ 1` plus `1 → 2`, source
0, sink 2, all capacities 1, flows 0) `edmonds_karp` returns `Ok`
leaving every flow at 0 — the batch-built residual graph lost both
forward arcs of the antiparallel pair to their reverse twins — yet the
network admits a feasible flow of value 1, so the written-back flow is
not a maximum flow.  The result is the same for every fuel because the
very first BFS already finds no augmenting path. -/
theorem edmonds_karp_misses_maxflow (fuel : Nat) :
    EdmondsKarp.edmondsKarp exFlowG 0 2 (fuel + 1) = .ok exFlowG ∧
    AdjListGraph.flowInto exFlowG 2 = 0 ∧
    AdjListGraph.IsFeasibleFlow exFlowG exFlowPhi 0 2 ∧
    AdjListGraph.flowValueInto exFlowG exFlowPhi 2 = 1 := by
  refine ⟨?_, rfl, by unfold AdjListGraph.IsFeasibleFlow; decide, rfl⟩
  have hres : @MatrixGraph.fromVerticesAndEdges ResE .Directed exFlowG.vertices
      ((exFlowG.allEdgesDirected.map fun t => (t.1, t.2.1, ResE.mk t.2.2.cap false)) ++
       (exFlowG.allEdgesDirected.map fun t => (t.2.1, t.1, ResE.mk 0 true))) =
      .ok exFlowRes := rfl
  have hfix := @mfLoop_fix exFlowRes 0 2 rfl (fuel + 1)
  simp only [EdmondsKarp.edmondsKarp, if_neg (by decide : ¬ (0 : Nat) = 2), hres, hfix]
  rfl
